import Mathlib

/-!
Verification of the Markdown link extractor
(`MarkdownLinkChecker.parse_links` / `check_file` from
`static/code/practical-optimization/profiling/profile_link_checker.py`).

Strings are modelled as `List Char`.  The three compiled regular
expressions of the checker are modelled by executable matchers with the
exact leftmost / greedy / non-overlapping semantics of `re.finditer`:

* `INLINE_LINK_PATTERN`  : `(?<!!)\[([^\]]+)\]\(([^)]+)\)`  -> `scanInline`
* `REFERENCE_DEF_PATTERN`: `(?m)^\s*\[([^\]]+)\]:\s*(.+)$`  -> `scanDefs`
* `REFERENCE_USE_PATTERN`: `\[([^\]]+)\]\[([^\]]+)\]`       -> `scanUse`

Whitespace (`\s`, `str.strip`) and lower-casing are modelled over the
ASCII range, matching the behaviour of the Python functions there.
-/

set_option maxHeartbeats 1000000
set_option maxRecDepth 8000

abbrev Str := List Char

/-- The characters matched by `\s` (and stripped by `str.strip`). -/
def isSpace (c : Char) : Bool :=
  c == ' ' || c == '\t' || c == '\n' || c == '\r' || c == '\x0b' || c == '\x0c'

/-- Predicate for the character class `[^d]`. -/
def notChar (d : Char) : Char → Bool := fun c => c != d

/-- Python `str.strip()`. -/
def strip (s : Str) : Str :=
  ((s.dropWhile isSpace).reverse.dropWhile isSpace).reverse

/-- Python `str.lower()`. -/
def lowerStr (s : Str) : Str := s.map Char.toLower

/-- Python `content.split("\n")`. -/
def splitLines : Str → List Str
  | [] => [[]]
  | c :: cs =>
    if c = '\n' then [] :: splitLines cs
    else
      match splitLines cs with
      | [] => [[c]]
      | l :: ls => (c :: l) :: ls

/-- Inverse of `splitLines`: join lines with a newline separator. -/
def joinLines : List Str → Str
  | [] => []
  | [l] => l
  | l :: l' :: ls => l ++ '\n' :: joinLines (l' :: ls)

/-- The backquote character (code point 96). -/
def backtickChar : Char := Char.ofNat 96

/-- Python `line.strip().startswith("\x60\x60\x60")`: the fence-marker test. -/
def isFenceLine (l : Str) : Bool :=
  match strip l with
  | c1 :: c2 :: c3 :: _ => c1 == backtickChar && c2 == backtickChar && c3 == backtickChar
  | _ => false

/-- One attempted match of `\[([^\]]+)\]\(([^)]+)\)` at the current
position (the `(?<!!)` lookbehind is handled by the caller `scanInline`).
On success, returns the two groups and the remainder after the match.
Both character classes exclude their closing delimiter, so the greedy
`+` quantifiers admit no backtracking: each group is the maximal run of
characters before the next delimiter. -/
def matchInlineAt (l : Str) : Option (Str × Str × Str) :=
  match l with
  | '[' :: r =>
    match r.takeWhile (notChar ']'), r.dropWhile (notChar ']') with
    | _ :: _, ']' :: '(' :: r2 =>
      match r2.takeWhile (notChar ')'), r2.dropWhile (notChar ')') with
      | _ :: _, ')' :: r4 => some (r.takeWhile (notChar ']'), r2.takeWhile (notChar ')'), r4)
      | _, _ => none
    | _, _ => none
  | _ => none

/-- One attempted match of `\[([^\]]+)\]\[([^\]]+)\]` at the current
position.  On success, returns the two groups and the remainder. -/
def matchUseAt (l : Str) : Option (Str × Str × Str) :=
  match l with
  | '[' :: r =>
    match r.takeWhile (notChar ']'), r.dropWhile (notChar ']') with
    | _ :: _, ']' :: '[' :: r2 =>
      match r2.takeWhile (notChar ']'), r2.dropWhile (notChar ']') with
      | _ :: _, ']' :: r4 => some (r.takeWhile (notChar ']'), r2.takeWhile (notChar ']'), r4)
      | _, _ => none
    | _, _ => none
  | _ => none

/-- One attempted match of `\[([^\]]+)\]:\s*(.+)$` on the input after the
leading `\s*` of the definition pattern has been removed.  The second
branch of the innermost match realizes the backtracking of the greedy
`\s*` against `(.+)$` when the whitespace after the colon runs to the end
of the input: the engine then gives back just enough whitespace for `.+`
to match the last non-newline character, and `$` matches before the
trailing newlines. -/
def tryDefAtCore (d : Str) : Option (Str × Str × Str) :=
  match d with
  | '[' :: r =>
    match r.takeWhile (notChar ']'), r.dropWhile (notChar ']') with
    | _ :: _, ']' :: ':' :: r3 =>
      match r3.dropWhile isSpace with
      | c :: cs =>
        some (r.takeWhile (notChar ']'), (c :: cs).takeWhile (notChar '\n'),
              (c :: cs).dropWhile (notChar '\n'))
      | [] =>
        match r3.reverse.dropWhile (fun x => x == '\n') with
        | [] => none
        | t :: _ =>
          some (r.takeWhile (notChar ']'), [t], (r3.reverse.takeWhile (fun x => x == '\n')).reverse)
    | _, _ => none
  | _ => none

/-- One attempted match of `^\s*\[([^\]]+)\]:\s*(.+)$` at a `^` position.
The leading greedy `\s*` admits no backtracking because `\[` can never
match a whitespace character. -/
def tryDefAt (l : Str) : Option (Str × Str × Str) :=
  tryDefAtCore (l.dropWhile isSpace)

/-- `finditer` for the inline-link pattern: leftmost non-overlapping
matches; `prev` is the character preceding the current position, used for
the `(?<!!)` lookbehind (a match always ends in `)`, hence `prev` is set
to `)` after a successful match). -/
def scanInline : Option Char → Str → List (Str × Str)
  | _, [] => []
  | prev, c :: cs =>
    if c = '[' ∧ prev ≠ some '!' then
      match h : matchInlineAt (c :: cs) with
      | some (t, g, rest) => (t, g) :: scanInline (some ')') rest
      | none => scanInline (some c) cs
    else scanInline (some c) cs
termination_by _ l => l.length
decreasing_by
  · have key : ∀ (l t g rest : Str), matchInlineAt l = some (t, g, rest) → rest.length < l.length := by
      intro l t g rest hm
      unfold matchInlineAt at hm
      split at hm
      · split at hm
        · split at hm
          · rename_i r a1 a2 c1 t1 r2 heqA heqB b1 b2 c2 t2 r4 heqC heqD
            simp only [Option.some.injEq, Prod.mk.injEq] at hm
            obtain ⟨-, -, h3⟩ := hm
            subst h3
            have s1 : List.Sublist (List.dropWhile (notChar ']') r) r := List.dropWhile_sublist _
            have s2 : List.Sublist (List.dropWhile (notChar ')') r2) r2 := List.dropWhile_sublist _
            have l1 := s1.length_le
            have l2 := s2.length_le
            rw [heqB] at l1
            rw [heqD] at l2
            simp only [List.length_cons] at *
            omega
          · exact absurd hm (by simp)
        · exact absurd hm (by simp)
      · exact absurd hm (by simp)
    exact key _ _ _ _ h
  · simp only [List.length_cons]; omega
  · simp only [List.length_cons]; omega

/-- Instrumented variant of `scanInline` that also records the 0-based
start position of each match inside the scanned line; `i` is the position
of the head of the remaining input. -/
def scanInlinePos : Option Char → Nat → Str → List (Str × Str × Nat)
  | _, _, [] => []
  | prev, i, c :: cs =>
    if c = '[' ∧ prev ≠ some '!' then
      match h : matchInlineAt (c :: cs) with
      | some (t, g, rest) => (t, g, i) :: scanInlinePos (some ')') (i + ((c :: cs).length - rest.length)) rest
      | none => scanInlinePos (some c) (i + 1) cs
    else scanInlinePos (some c) (i + 1) cs
termination_by _ _ l => l.length
decreasing_by
  · have key : ∀ (l t g rest : Str), matchInlineAt l = some (t, g, rest) → rest.length < l.length := by
      intro l t g rest hm
      unfold matchInlineAt at hm
      split at hm
      · split at hm
        · split at hm
          · rename_i r a1 a2 c1 t1 r2 heqA heqB b1 b2 c2 t2 r4 heqC heqD
            simp only [Option.some.injEq, Prod.mk.injEq] at hm
            obtain ⟨-, -, h3⟩ := hm
            subst h3
            have s1 : List.Sublist (List.dropWhile (notChar ']') r) r := List.dropWhile_sublist _
            have s2 : List.Sublist (List.dropWhile (notChar ')') r2) r2 := List.dropWhile_sublist _
            have l1 := s1.length_le
            have l2 := s2.length_le
            rw [heqB] at l1
            rw [heqD] at l2
            simp only [List.length_cons] at *
            omega
          · exact absurd hm (by simp)
        · exact absurd hm (by simp)
      · exact absurd hm (by simp)
    exact key _ _ _ _ h
  · simp only [List.length_cons]; omega
  · simp only [List.length_cons]; omega

/-- `finditer` for the reference-use pattern: leftmost non-overlapping
matches. -/
def scanUse : Str → List (Str × Str)
  | [] => []
  | c :: cs =>
    match h : matchUseAt (c :: cs) with
    | some (t, n, rest) => (t, n) :: scanUse rest
    | none => scanUse cs
termination_by l => l.length
decreasing_by
  · have key : ∀ (l t n rest : Str), matchUseAt l = some (t, n, rest) → rest.length < l.length := by
      intro l t n rest hm
      unfold matchUseAt at hm
      split at hm
      · split at hm
        · split at hm
          · rename_i r a1 a2 c1 t1 r2 heqA heqB b1 b2 c2 t2 r4 heqC heqD
            simp only [Option.some.injEq, Prod.mk.injEq] at hm
            obtain ⟨-, -, h3⟩ := hm
            subst h3
            have s1 : List.Sublist (List.dropWhile (notChar ']') r) r := List.dropWhile_sublist _
            have s2 : List.Sublist (List.dropWhile (notChar ']') r2) r2 := List.dropWhile_sublist _
            have l1 := s1.length_le
            have l2 := s2.length_le
            rw [heqB] at l1
            rw [heqD] at l2
            simp only [List.length_cons] at *
            omega
          · exact absurd hm (by simp)
        · exact absurd hm (by simp)
      · exact absurd hm (by simp)
    exact key _ _ _ _ h
  · simp only [List.length_cons]; omega

/-- `finditer` for the multiline-anchored reference-definition pattern.
`atStart` records whether the current position is a `^` position (start
of input or just after a newline); the pattern is anchored, so a match is
attempted only there.  After a successful match the scan resumes at the
match end (non-overlapping semantics). -/
def scanDefsAux : Bool → Str → List (Str × Str)
  | _, [] => []
  | atStart, c :: cs =>
    if atStart then
      match h : tryDefAt (c :: cs) with
      | some (n, t, rest) => (n, t) :: scanDefsAux false rest
      | none => scanDefsAux (c == '\n') cs
    else scanDefsAux (c == '\n') cs
termination_by _ l => l.length
decreasing_by
  · have key2 : ∀ (d n t rest : Str), tryDefAtCore d = some (n, t, rest) → rest.length < d.length := by
      intro d n t rest hm
      unfold tryDefAtCore at hm
      split at hm
      · split at hm
        · split at hm
          · rename_i r a1 a2 c1 t1 r3 heqA heqB a3 c' cs' heqC
            simp only [Option.some.injEq, Prod.mk.injEq] at hm
            obtain ⟨-, -, h3⟩ := hm
            subst h3
            have hcs : isSpace c' = false := by
              have hw := List.head_dropWhile_not isSpace r3 (by simp [heqC])
              simp only [heqC, List.head_cons] at hw
              exact hw
            have hc' : notChar '\n' c' = true := by
              simp only [notChar, bne_iff_ne, ne_eq]
              intro e
              subst e
              simp [isSpace] at hcs
            rw [List.dropWhile_cons_of_pos hc']
            have s1 : List.Sublist (List.dropWhile (notChar '\n') cs') cs' := List.dropWhile_sublist _
            have s2 : List.Sublist (List.dropWhile isSpace r3) r3 := List.dropWhile_sublist _
            have s3 : List.Sublist (List.dropWhile (notChar ']') r) r := List.dropWhile_sublist _
            have l1 := s1.length_le
            have l2 := s2.length_le
            have l3 := s3.length_le
            rw [heqC] at l2
            rw [heqB] at l3
            simp only [List.length_cons] at *
            omega
          · split at hm
            · exact absurd hm (by simp)
            · rename_i r a1 a2 c1 t1 r3 heqA heqB a3 heqC a4 t' ts heqD
              simp only [Option.some.injEq, Prod.mk.injEq] at hm
              obtain ⟨-, -, h3⟩ := hm
              subst h3
              have s1 : List.Sublist (List.takeWhile (fun x => x == '\n') r3.reverse) r3.reverse :=
                List.takeWhile_sublist _
              have l1 := s1.length_le
              have s3 : List.Sublist (List.dropWhile (notChar ']') r) r := List.dropWhile_sublist _
              have l3 := s3.length_le
              rw [heqB] at l3
              simp only [List.length_reverse, List.length_cons] at *
              omega
        · exact absurd hm (by simp)
      · exact absurd hm (by simp)
    have hkey : rest.length < ((c :: cs).dropWhile isSpace).length := by
      unfold tryDefAt at h
      exact key2 _ _ _ _ h
    have hd : List.Sublist ((c :: cs).dropWhile isSpace) (c :: cs) := List.dropWhile_sublist _
    have hdl := hd.length_le
    omega
  · simp only [List.length_cons]; omega
  · simp only [List.length_cons]; omega

/-- `REFERENCE_DEF_PATTERN.finditer(content)`: all matches of the
reference-definition pattern over the whole raw content, in order. -/
def scanDefs (content : Str) : List (Str × Str) :=
  scanDefsAux true content

/-- A Python `dict` built by successive insertions, modelled as the
insertion list; lookup returns the value of the last insertion of the
key (overwrite semantics). -/
def lookupLast (k : Str) : List (Str × Str) → Option Str
  | [] => none
  | nt :: rest =>
    match lookupLast k rest with
    | some v => some v
    | none => if nt.1 = k then some nt.2 else none

/-- The `reference_defs` dict of `parse_links`: for every match of the
definition pattern over the raw content, key = lowercased name, value =
stripped target; later entries overwrite earlier ones (via `lookupLast`). -/
def buildRefs (content : Str) : List (Str × Str) :=
  (scanDefs content).map (fun nt => (lowerStr nt.1, strip nt.2))

/-- One extracted link: `{"text": ..., "target": ..., "line": ...}`. -/
structure LinkOccurrence where
  text : Str
  target : Str
  line : Nat
deriving DecidableEq, Repr

/-- The occurrences appended for one line by the inline-link loop. -/
def inlineOccs (ln : Nat) (l : Str) : List LinkOccurrence :=
  (scanInline none l).map (fun tg => { text := tg.1, target := tg.2, line := ln })

/-- The occurrences appended for one line by the reference-use loop: a
use whose lowercased name is not in the dict is silently dropped. -/
def refOccs (refs : List (Str × Str)) (ln : Nat) (l : Str) : List LinkOccurrence :=
  (scanUse l).filterMap (fun tn =>
    match lookupLast (lowerStr tn.2) refs with
    | some tgt => some { text := tn.1, target := tgt, line := ln }
    | none => none)

/-- All occurrences appended for one non-fenced line: first the inline
matches, then the resolved reference uses. -/
def lineLinks (refs : List (Str × Str)) (ln : Nat) (l : Str) : List LinkOccurrence :=
  inlineOccs ln l ++ refOccs refs ln l

/-- The line loop of `parse_links`: `ln` is the 1-based number of the
next line, `fence` the `in_code_block` flag. -/
def parseLinksAux (refs : List (Str × Str)) : Nat → Bool → List Str → List LinkOccurrence
  | _, _, [] => []
  | ln, fence, l :: ls =>
    if isFenceLine l then parseLinksAux refs (ln + 1) (!fence) ls
    else if fence then parseLinksAux refs (ln + 1) fence ls
    else lineLinks refs ln l ++ parseLinksAux refs (ln + 1) fence ls

/-- `MarkdownLinkChecker.parse_links`. -/
def parse_links (content : Str) : List LinkOccurrence :=
  parseLinksAux (buildRefs content) 1 false (splitLines content)

/-- Result dict of `check_file`: on the error path the dict has keys
`file`, `error`, `links`; on the success path `file`, `total_links`,
`links`. -/
structure FileResult where
  file : Str
  error : Option Str
  total_links : Option Nat
  links : List LinkOccurrence
deriving DecidableEq, Repr

/-- `MarkdownLinkChecker.check_file`, with the filesystem abstracted as a
partial map from paths to contents (`none` = `not path.exists()`). -/
def check_file (fs : Str → Option Str) (file_path : Str) : FileResult :=
  match fs file_path with
  | none =>
    { file := file_path, error := some ("File not found".toList), total_links := none, links := [] }
  | some content =>
    let links := parse_links content
    { file := file_path, error := none, total_links := some links.length, links := links }

/-- Specification-side helper: the single-line reading of the
reference-definition pattern, for lines that contain no newline.  Used to
characterize `scanDefs` line by line. -/
def lineDef (l : Str) : Option (Str × Str) :=
  match l.dropWhile isSpace with
  | '[' :: r =>
    match r.takeWhile (notChar ']'), r.dropWhile (notChar ']') with
    | _ :: _, ']' :: ':' :: r3 =>
      match r3.dropWhile isSpace with
      | [] => none
      | c :: cs => some (r.takeWhile (notChar ']'), c :: cs)
    | _, _ => none
  | _ => none

/-- Specification-side helper: a line is `tame` when a definition-pattern
match attempted at its start can neither succeed with groups other than
`lineDef` nor spill over the end of the line into following lines.
Untame lines: all-whitespace lines (the leading `\s*` crosses the line
break), lines whose bracket is never closed on the line (the name class
`[^\]]+` crosses the line break), and dangling `[name]:` heads with only
whitespace to the end of the line (the `\s*` after the colon crosses the
line break). -/
def tameLine (l : Str) : Bool :=
  match l.dropWhile isSpace with
  | [] => false
  | '[' :: r =>
    match r.takeWhile (notChar ']'), r.dropWhile (notChar ']') with
    | _ :: _, ']' :: ':' :: r3 => !(r3.dropWhile isSpace).isEmpty
    | _, ']' :: _ => true
    | _, _ => false
  | _ => true

/-- Fence state after processing a list of lines, starting from `fence`. -/
def fenceAfter (fence : Bool) : List Str → Bool
  | [] => fence
  | l :: ls => fenceAfter (if isFenceLine l then !fence else fence) ls

/-- Number of fence-marker lines in a list of lines. -/
def fenceCount (ls : List Str) : Nat :=
  (ls.filter (fun l => isFenceLine l)).length

/-- A segment usable as link text or reference name inside a constructed
line: nonempty, and free of brackets, parentheses and newlines. -/
def plainSeg (s : Str) : Bool :=
  !s.isEmpty && s.all (fun c => c != '[' && c != ']' && c != '(' && c != ')' && c != '\n')

/-- A segment usable as a reference target: plain and whitespace-free. -/
def plainTarget (s : Str) : Bool :=
  plainSeg s && s.all (fun c => !isSpace c)

/-- A newline-free line that is either tame or all-whitespace: the lines
over which `scanDefs` is characterized line by line. -/
def docLine (l : Str) : Bool :=
  l.all (fun c => c != '\n') && (tameLine l || l.all isSpace)

/-- A `docLine` whose `lineDef` (if any) does not define the normalized
reference name `key`. -/
def lineOkFor (key : Str) (l : Str) : Bool :=
  docLine l &&
    (match lineDef l with
     | some nt => lowerStr nt.1 != key
     | none => true)

/-- A constructed reference-definition line `[name]: target`. -/
def defLine (name target : Str) : Str :=
  '[' :: name ++ ']' :: ':' :: ' ' :: target

/-- A constructed reference-use line `[text][name]`. -/
def useLine (text name : Str) : Str :=
  '[' :: text ++ ']' :: '[' :: name ++ [']']

/-- A constructed image line `![alt](target)`. -/
def imgLine (alt target : Str) : Str :=
  '!' :: '[' :: alt ++ ']' :: '(' :: target ++ [')']

/-- A bare fence-marker line. -/
def fenceLine : Str := [backtickChar, backtickChar, backtickChar]

unseal scanInline scanInlinePos scanUse scanDefsAux

/-! ## Basic list and string lemmas -/

theorem notChar_true {d c : Char} : notChar d c = true ↔ c ≠ d := by
  simp [notChar]

theorem notChar_false {d : Char} : notChar d d = false := by
  simp [notChar]

theorem takeWhile_break {p : Char → Bool} {l : Str} (x : Char) (r : Str)
    (h : ∀ a ∈ l, p a = true) (hx : p x = false) :
    (l ++ x :: r).takeWhile p = l := by
  rw [List.takeWhile_append_of_pos h, List.takeWhile_cons_of_neg (by simp [hx])]
  simp

theorem dropWhile_break {p : Char → Bool} {l : Str} (x : Char) (r : Str)
    (h : ∀ a ∈ l, p a = true) (hx : p x = false) :
    (l ++ x :: r).dropWhile p = x :: r := by
  rw [List.dropWhile_append_of_pos h, List.dropWhile_cons_of_neg (by simp [hx])]

theorem dropWhile_all_false {p : Char → Bool} {l : Str} (h : ∀ c ∈ l, p c = false) :
    l.dropWhile p = l := by
  cases l with
  | nil => rfl
  | cons c cs => rw [List.dropWhile_cons_of_neg (by simp [h c (by simp)])]

theorem strip_of_no_space {s : Str} (h : ∀ c ∈ s, isSpace c = false) : strip s = s := by
  unfold strip
  rw [dropWhile_all_false h, dropWhile_all_false (fun c hc => h c (List.mem_reverse.mp hc)),
      List.reverse_reverse]

theorem splitLines_no_newline {l : Str} (h : ∀ c ∈ l, c ≠ '\n') : splitLines l = [l] := by
  induction l with
  | nil => rfl
  | cons c cs ih =>
    have hc : c ≠ '\n' := h c (by simp)
    rw [splitLines, if_neg hc, ih (fun x hx => h x (by simp [hx]))]

theorem splitLines_append {l : Str} (r : Str) (h : ∀ c ∈ l, c ≠ '\n') :
    splitLines (l ++ '\n' :: r) = l :: splitLines r := by
  induction l with
  | nil => simp [splitLines]
  | cons c cs ih =>
    have hc : c ≠ '\n' := h c (by simp)
    rw [List.cons_append, splitLines, if_neg hc, ih (fun x hx => h x (by simp [hx]))]

theorem splitLines_joinLines {ls : List Str} (hne : ls ≠ [])
    (h : ∀ l ∈ ls, ∀ c ∈ l, c ≠ '\n') : splitLines (joinLines ls) = ls := by
  induction ls with
  | nil => exact absurd rfl hne
  | cons l ls ih =>
    cases ls with
    | nil => exact splitLines_no_newline (h l (by simp))
    | cons l' ls' =>
      rw [joinLines, splitLines_append _ (h l (by simp)),
          ih (by simp) (fun x hx => h x (by simp [hx]))]

/-! ## Matcher lemmas -/

theorem matchInlineAt_cons (r : Str) : matchInlineAt ('[' :: r) =
    (match r.takeWhile (notChar ']'), r.dropWhile (notChar ']') with
    | _ :: _, ']' :: '(' :: r2 =>
      match r2.takeWhile (notChar ')'), r2.dropWhile (notChar ')') with
      | _ :: _, ')' :: r4 => some (r.takeWhile (notChar ']'), r2.takeWhile (notChar ')'), r4)
      | _, _ => none
    | _, _ => none) := rfl

theorem matchInlineAt_build {t g : Str} (rest : Str) (ht : ∀ c ∈ t, c ≠ ']') (ht0 : t ≠ [])
    (hg : ∀ c ∈ g, c ≠ ')') (hg0 : g ≠ []) :
    matchInlineAt ('[' :: (t ++ ']' :: '(' :: (g ++ ')' :: rest))) = some (t, g, rest) := by
  have htw : ∀ c ∈ t, notChar ']' c = true := fun c hc => by simp [notChar, ht c hc]
  have hgw : ∀ c ∈ g, notChar ')' c = true := fun c hc => by simp [notChar, hg c hc]
  obtain ⟨a, t', rfl⟩ : ∃ a t', t = a :: t' := by
    cases t with
    | nil => exact absurd rfl ht0
    | cons a t' => exact ⟨_, _, rfl⟩
  obtain ⟨b, g', rfl⟩ : ∃ b g', g = b :: g' := by
    cases g with
    | nil => exact absurd rfl hg0
    | cons b g' => exact ⟨_, _, rfl⟩
  rw [matchInlineAt_cons]
  rw [takeWhile_break _ _ htw notChar_false, dropWhile_break _ _ htw notChar_false]
  show (match List.takeWhile (notChar ')') (b :: g' ++ ')' :: rest),
             List.dropWhile (notChar ')') (b :: g' ++ ')' :: rest) with
    | _ :: _, ')' :: r4 =>
      some (a :: t', List.takeWhile (notChar ')') (b :: g' ++ ')' :: rest), r4)
    | _, _ => none) = some (a :: t', b :: g', rest)
  rw [takeWhile_break _ _ hgw notChar_false, dropWhile_break _ _ hgw notChar_false]
  rfl

theorem matchUseAt_cons (r : Str) : matchUseAt ('[' :: r) =
    (match r.takeWhile (notChar ']'), r.dropWhile (notChar ']') with
    | _ :: _, ']' :: '[' :: r2 =>
      match r2.takeWhile (notChar ']'), r2.dropWhile (notChar ']') with
      | _ :: _, ']' :: r4 => some (r.takeWhile (notChar ']'), r2.takeWhile (notChar ']'), r4)
      | _, _ => none
    | _, _ => none) := rfl

theorem matchUseAt_build {t n : Str} (rest : Str) (ht : ∀ c ∈ t, c ≠ ']') (ht0 : t ≠ [])
    (hn : ∀ c ∈ n, c ≠ ']') (hn0 : n ≠ []) :
    matchUseAt ('[' :: (t ++ ']' :: '[' :: (n ++ ']' :: rest))) = some (t, n, rest) := by
  have htw : ∀ c ∈ t, notChar ']' c = true := fun c hc => by simp [notChar, ht c hc]
  have hnw : ∀ c ∈ n, notChar ']' c = true := fun c hc => by simp [notChar, hn c hc]
  obtain ⟨a, t', rfl⟩ : ∃ a t', t = a :: t' := by
    cases t with
    | nil => exact absurd rfl ht0
    | cons a t' => exact ⟨_, _, rfl⟩
  obtain ⟨b, n', rfl⟩ : ∃ b n', n = b :: n' := by
    cases n with
    | nil => exact absurd rfl hn0
    | cons b n' => exact ⟨_, _, rfl⟩
  rw [matchUseAt_cons]
  rw [takeWhile_break _ _ htw notChar_false, dropWhile_break _ _ htw notChar_false]
  show (match List.takeWhile (notChar ']') (b :: n' ++ ']' :: rest),
             List.dropWhile (notChar ']') (b :: n' ++ ']' :: rest) with
    | _ :: _, ']' :: r4 =>
      some (a :: t', List.takeWhile (notChar ']') (b :: n' ++ ']' :: rest), r4)
    | _, _ => none) = some (a :: t', b :: n', rest)
  rw [takeWhile_break _ _ hnw notChar_false, dropWhile_break _ _ hnw notChar_false]
  rfl

theorem matchInlineAt_some {l t g rest : Str} (hm : matchInlineAt l = some (t, g, rest)) :
    l = '[' :: (t ++ ']' :: '(' :: (g ++ ')' :: rest)) ∧ t ≠ [] ∧ g ≠ [] := by
  unfold matchInlineAt at hm
  split at hm
  · split at hm
    · split at hm
      · rename_i r a1 a2 c1 t1 r2 heqA heqB b1 b2 c2 t2 r4 heqC heqD
        simp only [Option.some.injEq, Prod.mk.injEq] at hm
        obtain ⟨h1, h2, h3⟩ := hm
        subst h1
        subst h2
        subst h3
        have e1 : List.takeWhile (notChar ']') r ++ List.dropWhile (notChar ']') r = r :=
          List.takeWhile_append_dropWhile _ _
        have e2 : List.takeWhile (notChar ')') r2 ++ List.dropWhile (notChar ')') r2 = r2 :=
          List.takeWhile_append_dropWhile _ _
        rw [heqB] at e1
        rw [heqD] at e2
        refine ⟨?_, by simp [heqA], by simp [heqC]⟩
        rw [e2, e1]
      · exact absurd hm (by simp)
    · exact absurd hm (by simp)
  · exact absurd hm (by simp)

theorem matchUseAt_some {l t n rest : Str} (hm : matchUseAt l = some (t, n, rest)) :
    l = '[' :: (t ++ ']' :: '[' :: (n ++ ']' :: rest)) ∧ t ≠ [] ∧ n ≠ [] := by
  unfold matchUseAt at hm
  split at hm
  · split at hm
    · split at hm
      · rename_i r a1 a2 c1 t1 r2 heqA heqB b1 b2 c2 t2 r4 heqC heqD
        simp only [Option.some.injEq, Prod.mk.injEq] at hm
        obtain ⟨h1, h2, h3⟩ := hm
        subst h1
        subst h2
        subst h3
        have e1 : List.takeWhile (notChar ']') r ++ List.dropWhile (notChar ']') r = r :=
          List.takeWhile_append_dropWhile _ _
        have e2 : List.takeWhile (notChar ']') r2 ++ List.dropWhile (notChar ']') r2 = r2 :=
          List.takeWhile_append_dropWhile _ _
        rw [heqB] at e1
        rw [heqD] at e2
        refine ⟨?_, by simp [heqA], by simp [heqC]⟩
        rw [e2, e1]
      · exact absurd hm (by simp)
    · exact absurd hm (by simp)
  · exact absurd hm (by simp)

theorem matchInlineAt_not_open {c : Char} (cs : Str) (h : c ≠ '[') :
    matchInlineAt (c :: cs) = none := by
  unfold matchInlineAt
  split
  · rename_i r heq
    exact absurd (List.head_eq_of_cons_eq heq.symm).symm h
  · rfl

theorem matchUseAt_not_open {c : Char} (cs : Str) (h : c ≠ '[') :
    matchUseAt (c :: cs) = none := by
  unfold matchUseAt
  split
  · rename_i r heq
    exact absurd (List.head_eq_of_cons_eq heq.symm).symm h
  · rfl

theorem tryDefAtCore_not_open {c : Char} (cs : Str) (h : c ≠ '[') :
    tryDefAtCore (c :: cs) = none := by
  unfold tryDefAtCore
  split
  · rename_i r heq
    exact absurd (List.head_eq_of_cons_eq heq.symm).symm h
  · rfl

theorem tryDefAtCore_nil : tryDefAtCore [] = none := rfl

/-! ## Scanner step lemmas -/

theorem scanInline_cons_skip {prev : Option Char} {c : Char} (cs : Str)
    (h : ¬(c = '[' ∧ prev ≠ some '!')) :
    scanInline prev (c :: cs) = scanInline (some c) cs := by
  rw [scanInline]
  rw [if_neg h]

theorem scanInline_cons_match {prev : Option Char} {c : Char} {cs t g rest : Str}
    (hcond : c = '[' ∧ prev ≠ some '!') (hm : matchInlineAt (c :: cs) = some (t, g, rest)) :
    scanInline prev (c :: cs) = (t, g) :: scanInline (some ')') rest := by
  rw [scanInline]
  rw [if_pos hcond]
  split
  · rename_i t' g' rest' hm'
    rw [hm] at hm'
    simp only [Option.some.injEq, Prod.mk.injEq] at hm'
    obtain ⟨h1, h2, h3⟩ := hm'
    rw [h1, h2, h3]
  · rename_i hm'
    rw [hm] at hm'
    exact absurd hm' (by simp)

theorem scanInline_cons_fail {prev : Option Char} {c : Char} {cs : Str}
    (hcond : c = '[' ∧ prev ≠ some '!') (hm : matchInlineAt (c :: cs) = none) :
    scanInline prev (c :: cs) = scanInline (some c) cs := by
  rw [scanInline]
  rw [if_pos hcond]
  split
  · rename_i t' g' rest' hm'
    rw [hm] at hm'
    exact absurd hm' (by simp)
  · rfl

theorem scanInlinePos_cons_skip {prev : Option Char} {i : Nat} {c : Char} (cs : Str)
    (h : ¬(c = '[' ∧ prev ≠ some '!')) :
    scanInlinePos prev i (c :: cs) = scanInlinePos (some c) (i + 1) cs := by
  rw [scanInlinePos]
  rw [if_neg h]

theorem scanInlinePos_cons_match {prev : Option Char} {i : Nat} {c : Char} {cs t g rest : Str}
    (hcond : c = '[' ∧ prev ≠ some '!') (hm : matchInlineAt (c :: cs) = some (t, g, rest)) :
    scanInlinePos prev i (c :: cs) =
      (t, g, i) :: scanInlinePos (some ')') (i + ((c :: cs).length - rest.length)) rest := by
  rw [scanInlinePos]
  rw [if_pos hcond]
  split
  · rename_i t' g' rest' hm'
    rw [hm] at hm'
    simp only [Option.some.injEq, Prod.mk.injEq] at hm'
    obtain ⟨h1, h2, h3⟩ := hm'
    rw [h1, h2, h3]
  · rename_i hm'
    rw [hm] at hm'
    exact absurd hm' (by simp)

theorem scanInlinePos_cons_fail {prev : Option Char} {i : Nat} {c : Char} {cs : Str}
    (hcond : c = '[' ∧ prev ≠ some '!') (hm : matchInlineAt (c :: cs) = none) :
    scanInlinePos prev i (c :: cs) = scanInlinePos (some c) (i + 1) cs := by
  rw [scanInlinePos]
  rw [if_pos hcond]
  split
  · rename_i t' g' rest' hm'
    rw [hm] at hm'
    exact absurd hm' (by simp)
  · rfl

theorem scanUse_cons_match {c : Char} {cs t n rest : Str}
    (hm : matchUseAt (c :: cs) = some (t, n, rest)) :
    scanUse (c :: cs) = (t, n) :: scanUse rest := by
  rw [scanUse]
  split
  · rename_i t' n' rest' hm'
    rw [hm] at hm'
    simp only [Option.some.injEq, Prod.mk.injEq] at hm'
    obtain ⟨h1, h2, h3⟩ := hm'
    rw [h1, h2, h3]
  · rename_i hm'
    rw [hm] at hm'
    exact absurd hm' (by simp)

theorem scanUse_cons_fail {c : Char} {cs : Str} (hm : matchUseAt (c :: cs) = none) :
    scanUse (c :: cs) = scanUse cs := by
  rw [scanUse]
  split
  · rename_i t' n' rest' hm'
    rw [hm] at hm'
    exact absurd hm' (by simp)
  · rfl

theorem scanDefsAux_cons_match {c : Char} {cs n t rest : Str}
    (hm : tryDefAt (c :: cs) = some (n, t, rest)) :
    scanDefsAux true (c :: cs) = (n, t) :: scanDefsAux false rest := by
  rw [scanDefsAux]
  rw [if_pos rfl]
  split
  · rename_i n' t' rest' hm'
    rw [hm] at hm'
    simp only [Option.some.injEq, Prod.mk.injEq] at hm'
    obtain ⟨h1, h2, h3⟩ := hm'
    rw [h1, h2, h3]
  · rename_i hm'
    rw [hm] at hm'
    exact absurd hm' (by simp)

theorem scanDefsAux_cons_fail {c : Char} {cs : Str} (hm : tryDefAt (c :: cs) = none) :
    scanDefsAux true (c :: cs) = scanDefsAux (c == '\n') cs := by
  rw [scanDefsAux]
  rw [if_pos rfl]
  split
  · rename_i n' t' rest' hm'
    rw [hm] at hm'
    exact absurd hm' (by simp)
  · rfl

theorem scanDefsAux_cons_false {c : Char} (cs : Str) :
    scanDefsAux false (c :: cs) = scanDefsAux (c == '\n') cs := by
  rw [scanDefsAux]
  rw [if_neg (by simp)]

/-! ## Plain-segment helpers -/

theorem plainSeg_spec {s : Str} (h : plainSeg s = true) :
    s ≠ [] ∧ ∀ c ∈ s, c ≠ '[' ∧ c ≠ ']' ∧ c ≠ '(' ∧ c ≠ ')' ∧ c ≠ '\n' := by
  simp only [plainSeg, Bool.and_eq_true, List.all_eq_true, Bool.not_eq_true',
    List.isEmpty_eq_false] at h
  refine ⟨h.1, fun c hc => ?_⟩
  have := h.2 c hc
  simp only [Bool.and_eq_true, bne_iff_ne, ne_eq] at this
  exact ⟨this.1.1.1.1, this.1.1.1.2, this.1.1.2, this.1.2, this.2⟩

theorem plainTarget_spec {s : Str} (h : plainTarget s = true) :
    plainSeg s = true ∧ ∀ c ∈ s, isSpace c = false := by
  simp only [plainTarget, Bool.and_eq_true, List.all_eq_true, Bool.not_eq_true'] at h
  exact ⟨h.1, fun c hc => h.2 c hc⟩

/-! ## Scan-level lemmas -/

theorem scanInline_no_paren (prev : Option Char) (l : Str) (h : ∀ c ∈ l, c ≠ '(') :
    scanInline prev l = [] := by
  induction prev, l using scanInline.induct with
  | case1 prev => rfl
  | case2 prev c cs hcond t g rest hm ih =>
    obtain ⟨he, -, -⟩ := matchInlineAt_some hm
    have hp : '(' ∈ c :: cs := by rw [he]; simp
    exact absurd rfl (h _ hp)
  | case3 prev c cs hcond hm ih =>
    rw [scanInline_cons_fail hcond hm]
    exact ih (fun x hx => h x (by simp [hx]))
  | case4 prev c cs hcond ih =>
    rw [scanInline_cons_skip _ hcond]
    exact ih (fun x hx => h x (by simp [hx]))

theorem scanInline_walk (s : Str) (prev : Option Char) (r : Str) (h : ∀ c ∈ s, c ≠ '[') :
    scanInline prev (s ++ r) =
      scanInline (match s.getLast? with | some d => some d | none => prev) r := by
  induction s generalizing prev with
  | nil => rfl
  | cons c s' ih =>
    have hc : c ≠ '[' := h c (by simp)
    rw [List.cons_append, scanInline_cons_skip _ (by simp [hc]),
        ih (some c) (fun x hx => h x (by simp [hx]))]
    cases s' with
    | nil => rfl
    | cons d s'' => rfl

theorem scanUse_walk (s r : Str) (h : ∀ c ∈ s, c ≠ '[') :
    scanUse (s ++ r) = scanUse r := by
  induction s with
  | nil => rfl
  | cons c s' ih =>
    have hc : c ≠ '[' := h c (by simp)
    rw [List.cons_append, scanUse_cons_fail (matchUseAt_not_open _ hc),
        ih (fun x hx => h x (by simp [hx]))]

theorem scanUse_no_open (l : Str) (h : ∀ c ∈ l, c ≠ '[') : scanUse l = [] := by
  have := scanUse_walk l [] h
  simpa using this

/-! ## Evaluation on the constructed lines -/

theorem useLine_eq (text name : Str) :
    useLine text name = '[' :: (text ++ ']' :: '[' :: (name ++ ']' :: [])) := by
  simp [useLine]

theorem defLine_eq (name target : Str) :
    defLine name target = '[' :: (name ++ ']' :: ':' :: ' ' :: target) := by
  simp [defLine]

theorem imgLine_eq (alt target : Str) :
    imgLine alt target = '!' :: '[' :: (alt ++ ']' :: '(' :: (target ++ ')' :: [])) := by
  simp [imgLine]

theorem scanUse_useLine {text name : Str} (ht : plainSeg text = true)
    (hn : plainSeg name = true) : scanUse (useLine text name) = [(text, name)] := by
  obtain ⟨ht0, hts⟩ := plainSeg_spec ht
  obtain ⟨hn0, hns⟩ := plainSeg_spec hn
  rw [useLine_eq]
  rw [scanUse_cons_match (matchUseAt_build [] (fun c hc => (hts c hc).2.1) ht0
    (fun c hc => (hns c hc).2.1) hn0)]
  rfl

theorem matchUseAt_defTail {name : Str} (target : Str) (hn0 : name ≠ [])
    (hns : ∀ c ∈ name, c ≠ ']') :
    matchUseAt ('[' :: (name ++ ']' :: ':' :: ' ' :: target)) = none := by
  obtain ⟨a, n', rfl⟩ : ∃ a n', name = a :: n' := by
    cases name with
    | nil => exact absurd rfl hn0
    | cons a n' => exact ⟨_, _, rfl⟩
  have hnw : ∀ c ∈ a :: n', notChar ']' c = true := fun c hc => by simp [notChar, hns c hc]
  rw [matchUseAt_cons]
  rw [takeWhile_break _ _ hnw notChar_false, dropWhile_break _ _ hnw notChar_false]
  rfl

theorem scanUse_defLine {name target : Str} (hn : plainSeg name = true)
    (hg : plainSeg target = true) : scanUse (defLine name target) = [] := by
  obtain ⟨hn0, hns⟩ := plainSeg_spec hn
  obtain ⟨-, hgs⟩ := plainSeg_spec hg
  rw [defLine_eq]
  rw [scanUse_cons_fail (matchUseAt_defTail _ hn0 (fun c hc => (hns c hc).2.1))]
  refine scanUse_no_open _ ?_
  intro c hc
  simp only [List.mem_append, List.mem_cons] at hc
  rcases hc with h1 | h2
  · exact (hns c h1).1
  · rcases h2 with rfl | rfl | rfl | h3
    · simp
    · simp
    · simp
    · exact (hgs c h3).1

theorem matchUseAt_imgTail {alt : Str} (target : Str) (ha0 : alt ≠ [])
    (has : ∀ c ∈ alt, c ≠ ']') :
    matchUseAt ('[' :: (alt ++ ']' :: '(' :: (target ++ ')' :: []))) = none := by
  obtain ⟨a, a', rfl⟩ : ∃ a a', alt = a :: a' := by
    cases alt with
    | nil => exact absurd rfl ha0
    | cons a a' => exact ⟨_, _, rfl⟩
  have haw : ∀ c ∈ a :: a', notChar ']' c = true := fun c hc => by simp [notChar, has c hc]
  rw [matchUseAt_cons]
  rw [takeWhile_break _ _ haw notChar_false, dropWhile_break _ _ haw notChar_false]
  rfl

theorem scanUse_imgLine {alt target : Str} (ha : plainSeg alt = true)
    (hg : plainSeg target = true) : scanUse (imgLine alt target) = [] := by
  obtain ⟨ha0, has⟩ := plainSeg_spec ha
  obtain ⟨-, hgs⟩ := plainSeg_spec hg
  rw [imgLine_eq]
  rw [scanUse_cons_fail (matchUseAt_not_open _ (by simp))]
  rw [scanUse_cons_fail (matchUseAt_imgTail _ ha0 (fun c hc => (has c hc).2.1))]
  refine scanUse_no_open _ ?_
  intro c hc
  simp only [List.mem_append, List.mem_cons] at hc
  rcases hc with h1 | h2
  · exact (has c h1).1
  · rcases h2 with rfl | rfl | h3
    · simp
    · simp
    · rcases h3 with h4 | h5 | h6
      · exact (hgs c h4).1
      · subst h5
        simp
      · exact absurd h6 (List.not_mem_nil c)

theorem scanInline_useLine (prev : Option Char) {text name : Str} (ht : plainSeg text = true)
    (hn : plainSeg name = true) : scanInline prev (useLine text name) = [] := by
  obtain ⟨-, hts⟩ := plainSeg_spec ht
  obtain ⟨-, hns⟩ := plainSeg_spec hn
  refine scanInline_no_paren _ _ ?_
  intro c hc
  rw [useLine_eq] at hc
  simp only [List.mem_cons, List.mem_append] at hc
  rcases hc with rfl | h1 | h2
  · simp
  · exact (hts c h1).2.2.1
  · rcases h2 with rfl | rfl | h3
    · simp
    · simp
    · rcases h3 with h4 | h5
      · exact (hns c h4).2.2.1
      · simp only [List.mem_cons, List.not_mem_nil, or_false] at h5
        subst h5
        simp

theorem scanInline_defLine (prev : Option Char) {name target : Str} (hn : plainSeg name = true)
    (hg : plainSeg target = true) : scanInline prev (defLine name target) = [] := by
  obtain ⟨-, hns⟩ := plainSeg_spec hn
  obtain ⟨-, hgs⟩ := plainSeg_spec hg
  refine scanInline_no_paren _ _ ?_
  intro c hc
  rw [defLine_eq] at hc
  simp only [List.mem_cons, List.mem_append] at hc
  rcases hc with rfl | h1 | h2
  · simp
  · exact (hns c h1).2.2.1
  · rcases h2 with rfl | rfl | rfl | h3
    · simp
    · simp
    · simp
    · exact (hgs c h3).2.2.1

theorem scanInline_imgLine {alt target : Str} (ha : plainSeg alt = true)
    (hg : plainSeg target = true) : scanInline none (imgLine alt target) = [] := by
  obtain ⟨ha0, has⟩ := plainSeg_spec ha
  obtain ⟨hg0, hgs⟩ := plainSeg_spec hg
  rw [imgLine_eq]
  rw [scanInline_cons_skip _ (by simp)]
  rw [scanInline_cons_skip _ (by simp)]
  rw [scanInline_walk _ _ _ (fun c hc => (has c hc).1)]
  rw [scanInline_cons_skip _ (by rintro ⟨h1, -⟩; simp at h1)]
  rw [scanInline_cons_skip _ (by rintro ⟨h1, -⟩; simp at h1)]
  rw [scanInline_walk _ _ _ (fun c hc => (hgs c hc).1)]
  rw [scanInline_cons_skip _ (by rintro ⟨h1, -⟩; simp at h1)]
  rfl

theorem fenceLine_no_open : ∀ c ∈ fenceLine, c ≠ '[' := by
  intro c hc
  simp only [fenceLine, List.mem_cons, List.not_mem_nil, or_false] at hc
  rcases hc with rfl | rfl | rfl <;> simp [backtickChar] <;> decide

theorem scanUse_fenceLine : scanUse fenceLine = [] := by decide

theorem scanInline_fenceLine (prev : Option Char) : scanInline prev fenceLine = [] := by
  refine scanInline_no_paren _ _ ?_
  intro c hc
  simp only [fenceLine, List.mem_cons, List.not_mem_nil, or_false] at hc
  rcases hc with rfl | rfl | rfl <;> decide

/-! ## Line classification of the constructed lines -/

theorem head_dropWhile_false {p : Char → Bool} {l : Str} {y : Char} {ys : Str}
    (h : l.dropWhile p = y :: ys) : p y = false := by
  induction l with
  | nil => simp [List.dropWhile] at h
  | cons a as ih =>
    cases hpa : p a with
    | true =>
      rw [List.dropWhile_cons_of_pos hpa] at h
      exact ih h
    | false =>
      rw [List.dropWhile_cons_of_neg (by simp [hpa])] at h
      cases h
      exact hpa

theorem strip_head {l : Str} {c : Char} {d' : Str} (h : l.dropWhile isSpace = c :: d') :
    ∃ t, strip l = c :: t := by
  have hc : isSpace c = false := head_dropWhile_false h
  unfold strip
  rw [h]
  have : (c :: d').reverse = d'.reverse ++ [c] := by simp
  rw [this, List.dropWhile_append]
  split
  · rw [List.dropWhile_cons_of_neg (by simp [hc])]
    exact ⟨[], rfl⟩
  · rw [List.reverse_append]
    exact ⟨_, rfl⟩

theorem isFenceLine_false_of_strip_head {l : Str} {c : Char} {t : Str} (h : strip l = c :: t)
    (hc : c ≠ backtickChar) : isFenceLine l = false := by
  unfold isFenceLine
  rw [h]
  cases t with
  | nil => rfl
  | cons c2 t2 =>
    cases t2 with
    | nil => rfl
    | cons c3 t3 => simp [hc]

theorem isFenceLine_defLine (name target : Str) : isFenceLine (defLine name target) = false := by
  have h1 : (defLine name target).dropWhile isSpace = '[' :: (name ++ ']' :: ':' :: ' ' :: target) := by
    rw [defLine_eq]
    exact List.dropWhile_cons_of_neg (by simp [isSpace])
  obtain ⟨t, ht⟩ := strip_head h1
  exact isFenceLine_false_of_strip_head ht (by decide)

theorem isFenceLine_useLine (text name : Str) : isFenceLine (useLine text name) = false := by
  have h1 : (useLine text name).dropWhile isSpace = '[' :: (text ++ ']' :: '[' :: (name ++ ']' :: [])) := by
    rw [useLine_eq]
    exact List.dropWhile_cons_of_neg (by simp [isSpace])
  obtain ⟨t, ht⟩ := strip_head h1
  exact isFenceLine_false_of_strip_head ht (by decide)

theorem isFenceLine_imgLine (alt target : Str) : isFenceLine (imgLine alt target) = false := by
  have h1 : (imgLine alt target).dropWhile isSpace = '!' :: '[' :: (alt ++ ']' :: '(' :: (target ++ ')' :: [])) := by
    rw [imgLine_eq]
    exact List.dropWhile_cons_of_neg (by simp [isSpace])
  obtain ⟨t, ht⟩ := strip_head h1
  exact isFenceLine_false_of_strip_head ht (by decide)

theorem isFenceLine_fenceLine : isFenceLine fenceLine = true := by decide

theorem lineDef_of_dropWhile {l r : Str} (h : l.dropWhile isSpace = '[' :: r) :
    lineDef l = (match r.takeWhile (notChar ']'), r.dropWhile (notChar ']') with
    | _ :: _, ']' :: ':' :: r3 =>
      match r3.dropWhile isSpace with
      | [] => none
      | c :: cs => some (r.takeWhile (notChar ']'), c :: cs)
    | _, _ => none) := by
  unfold lineDef
  rw [h]
  rfl

theorem tameLine_of_dropWhile {l r : Str} (h : l.dropWhile isSpace = '[' :: r) :
    tameLine l = (match r.takeWhile (notChar ']'), r.dropWhile (notChar ']') with
    | _ :: _, ']' :: ':' :: r3 => !(r3.dropWhile isSpace).isEmpty
    | _, ']' :: _ => true
    | _, _ => false) := by
  unfold tameLine
  rw [h]
  rfl

theorem lineDef_not_open {l : Str} {c : Char} {r : Str} (h : l.dropWhile isSpace = c :: r)
    (hc : c ≠ '[') : lineDef l = none := by
  unfold lineDef
  rw [h]
  split
  · rename_i r' heq
    simp only [List.cons.injEq] at heq
    exact absurd heq.1 hc
  · rfl

theorem tameLine_not_open {l : Str} {c : Char} {r : Str} (h : l.dropWhile isSpace = c :: r)
    (hc : c ≠ '[') : tameLine l = true := by
  unfold tameLine
  rw [h]
  split
  · rename_i heq
    simp at heq
  · rename_i r' heq
    simp only [List.cons.injEq] at heq
    exact absurd heq.1 hc
  · rfl

theorem dropWhile_isSpace_defLine (name target : Str) :
    (defLine name target).dropWhile isSpace = '[' :: (name ++ ']' :: ':' :: ' ' :: target) := by
  rw [defLine_eq]
  exact List.dropWhile_cons_of_neg (by simp [isSpace])

theorem dropWhile_isSpace_useLine (text name : Str) :
    (useLine text name).dropWhile isSpace = '[' :: (text ++ ']' :: '[' :: (name ++ ']' :: [])) := by
  rw [useLine_eq]
  exact List.dropWhile_cons_of_neg (by simp [isSpace])

theorem dropWhile_isSpace_imgLine (alt target : Str) :
    (imgLine alt target).dropWhile isSpace = '!' :: ('[' :: (alt ++ ']' :: '(' :: (target ++ ')' :: []))) := by
  rw [imgLine_eq]
  exact List.dropWhile_cons_of_neg (by simp [isSpace])

theorem lineDef_defLine {name target : Str} (hn : plainSeg name = true)
    (hg : plainTarget target = true) : lineDef (defLine name target) = some (name, target) := by
  obtain ⟨hn0, hns⟩ := plainSeg_spec hn
  obtain ⟨hgp, hgw⟩ := plainTarget_spec hg
  obtain ⟨hg0, -⟩ := plainSeg_spec hgp
  obtain ⟨a, n', rfl⟩ : ∃ a n', name = a :: n' := by
    cases name with
    | nil => exact absurd rfl hn0
    | cons a n' => exact ⟨_, _, rfl⟩
  have hnw : ∀ c ∈ a :: n', notChar ']' c = true := fun c hc => by simp [notChar, (hns c hc).2.1]
  rw [lineDef_of_dropWhile (dropWhile_isSpace_defLine _ _)]
  rw [takeWhile_break _ _ hnw notChar_false, dropWhile_break _ _ hnw notChar_false]
  show (match (' ' :: target).dropWhile isSpace with
    | [] => none
    | c :: cs => some ((a :: n', c :: cs) : Str × Str)) = some (a :: n', target)
  rw [List.dropWhile_cons_of_pos (by simp [isSpace]), dropWhile_all_false hgw]
  obtain ⟨b, g', rfl⟩ : ∃ b g', target = b :: g' := by
    cases target with
    | nil => exact absurd rfl hg0
    | cons b g' => exact ⟨_, _, rfl⟩
  rfl

theorem tameLine_defLine {name target : Str} (hn : plainSeg name = true)
    (hg : plainTarget target = true) : tameLine (defLine name target) = true := by
  obtain ⟨hn0, hns⟩ := plainSeg_spec hn
  obtain ⟨hgp, hgw⟩ := plainTarget_spec hg
  obtain ⟨hg0, -⟩ := plainSeg_spec hgp
  obtain ⟨a, n', rfl⟩ : ∃ a n', name = a :: n' := by
    cases name with
    | nil => exact absurd rfl hn0
    | cons a n' => exact ⟨_, _, rfl⟩
  have hnw : ∀ c ∈ a :: n', notChar ']' c = true := fun c hc => by simp [notChar, (hns c hc).2.1]
  rw [tameLine_of_dropWhile (dropWhile_isSpace_defLine _ _)]
  rw [takeWhile_break _ _ hnw notChar_false, dropWhile_break _ _ hnw notChar_false]
  show (!((' ' :: target).dropWhile isSpace).isEmpty) = true
  rw [List.dropWhile_cons_of_pos (by simp [isSpace]), dropWhile_all_false hgw]
  simp [hg0]

theorem lineDef_useLine {text name : Str} (ht : plainSeg text = true) :
    lineDef (useLine text name) = none := by
  obtain ⟨ht0, hts⟩ := plainSeg_spec ht
  obtain ⟨a, t', rfl⟩ : ∃ a t', text = a :: t' := by
    cases text with
    | nil => exact absurd rfl ht0
    | cons a t' => exact ⟨_, _, rfl⟩
  have htw : ∀ c ∈ a :: t', notChar ']' c = true := fun c hc => by simp [notChar, (hts c hc).2.1]
  rw [lineDef_of_dropWhile (dropWhile_isSpace_useLine _ _)]
  rw [takeWhile_break _ _ htw notChar_false, dropWhile_break _ _ htw notChar_false]
  rfl

theorem tameLine_useLine {text name : Str} (ht : plainSeg text = true) :
    tameLine (useLine text name) = true := by
  obtain ⟨ht0, hts⟩ := plainSeg_spec ht
  obtain ⟨a, t', rfl⟩ : ∃ a t', text = a :: t' := by
    cases text with
    | nil => exact absurd rfl ht0
    | cons a t' => exact ⟨_, _, rfl⟩
  have htw : ∀ c ∈ a :: t', notChar ']' c = true := fun c hc => by simp [notChar, (hts c hc).2.1]
  rw [tameLine_of_dropWhile (dropWhile_isSpace_useLine _ _)]
  rw [takeWhile_break _ _ htw notChar_false, dropWhile_break _ _ htw notChar_false]
  rfl

theorem lineDef_imgLine (alt target : Str) : lineDef (imgLine alt target) = none :=
  lineDef_not_open (dropWhile_isSpace_imgLine _ _) (by decide)

theorem tameLine_imgLine (alt target : Str) : tameLine (imgLine alt target) = true :=
  tameLine_not_open (dropWhile_isSpace_imgLine _ _) (by decide)

theorem tameLine_fenceLine : tameLine fenceLine = true := by decide

theorem lineDef_fenceLine : lineDef fenceLine = none := by decide

theorem docLine_fenceLine : docLine fenceLine = true := by decide

theorem docLine_defLine {name target : Str} (hn : plainSeg name = true)
    (hg : plainTarget target = true) : docLine (defLine name target) = true := by
  obtain ⟨-, hns⟩ := plainSeg_spec hn
  obtain ⟨hgp, -⟩ := plainTarget_spec hg
  obtain ⟨-, hgs⟩ := plainSeg_spec hgp
  unfold docLine
  rw [tameLine_defLine hn hg]
  simp only [Bool.true_or, Bool.and_true]
  rw [List.all_eq_true]
  intro c hc
  rw [defLine_eq] at hc
  simp only [List.mem_cons, List.mem_append] at hc
  rcases hc with rfl | h1 | h2
  · simp
  · simp [(hns c h1).2.2.2.2]
  · rcases h2 with rfl | rfl | rfl | h3
    · simp
    · simp
    · simp
    · simp [(hgs c h3).2.2.2.2]

theorem docLine_useLine {text name : Str} (ht : plainSeg text = true)
    (hn : plainSeg name = true) : docLine (useLine text name) = true := by
  obtain ⟨-, hts⟩ := plainSeg_spec ht
  obtain ⟨-, hns⟩ := plainSeg_spec hn
  unfold docLine
  rw [tameLine_useLine ht]
  simp only [Bool.true_or, Bool.and_true]
  rw [List.all_eq_true]
  intro c hc
  rw [useLine_eq] at hc
  simp only [List.mem_cons, List.mem_append] at hc
  rcases hc with rfl | h1 | h2
  · simp
  · simp [(hts c h1).2.2.2.2]
  · rcases h2 with rfl | rfl | h3
    · simp
    · simp
    · rcases h3 with h4 | h5
      · simp [(hns c h4).2.2.2.2]
      · simp only [List.mem_cons, List.not_mem_nil, or_false] at h5
        subst h5
        simp

/-! ## Reference-definition scan: support lemmas -/

theorem tryDefAtCore_cons (r : Str) : tryDefAtCore ('[' :: r) =
    (match r.takeWhile (notChar ']'), r.dropWhile (notChar ']') with
    | _ :: _, ']' :: ':' :: r3 =>
      match r3.dropWhile isSpace with
      | c :: cs =>
        some (r.takeWhile (notChar ']'), (c :: cs).takeWhile (notChar '\n'),
              (c :: cs).dropWhile (notChar '\n'))
      | [] =>
        match r3.reverse.dropWhile (fun x => x == '\n') with
        | [] => none
        | t :: _ =>
          some (r.takeWhile (notChar ']'), [t], (r3.reverse.takeWhile (fun x => x == '\n')).reverse)
    | _, _ => none) := rfl

theorem tryDefAt_ws_prefix {w : Str} (x : Str) (h : ∀ c ∈ w, isSpace c = true) :
    tryDefAt (w ++ x) = tryDefAt x := by
  unfold tryDefAt
  rw [List.dropWhile_append_of_pos h]

theorem walkDefs {s : Str} (r : Str) (h : ∀ c ∈ s, c ≠ '\n') :
    scanDefsAux false (s ++ r) = scanDefsAux false r := by
  induction s with
  | nil => rfl
  | cons c s' ih =>
    have hc : c ≠ '\n' := h c (by simp)
    rw [List.cons_append, scanDefsAux_cons_false, show (c == '\n') = false by simp [hc],
        ih (fun x hx => h x (by simp [hx]))]

theorem scanDefsAux_newline (r : Str) : scanDefsAux false ('\n' :: r) = scanDefsAux true r := by
  rw [scanDefsAux_cons_false]
  rfl

theorem lineDef_allspace {l : Str} (h : ∀ c ∈ l, isSpace c = true) : lineDef l = none := by
  unfold lineDef
  rw [List.dropWhile_eq_nil_iff.mpr (by intro x hx; simp [h x hx])]

theorem tryDefAt_allspace {l : Str} (h : ∀ c ∈ l, isSpace c = true) : tryDefAt l = none := by
  unfold tryDefAt
  rw [List.dropWhile_eq_nil_iff.mpr (by intro x hx; simp [h x hx])]
  rfl

theorem tameLine_ne_nil {l : Str} (h : tameLine l = true) : l.dropWhile isSpace ≠ [] := by
  intro he
  unfold tameLine at h
  rw [he] at h
  simp at h

theorem docLine_spec {l : Str} (h : docLine l = true) :
    (∀ c ∈ l, c ≠ '\n') ∧ (tameLine l = true ∨ ∀ c ∈ l, isSpace c = true) := by
  unfold docLine at h
  simp only [Bool.and_eq_true, Bool.or_eq_true, List.all_eq_true] at h
  constructor
  · intro c hc
    have := h.1 c hc
    simpa using this
  · rcases h.2 with h2 | h2
    · exact Or.inl h2
    · exact Or.inr (fun c hc => h2 c hc)

theorem tryDefAt_tame (l X : Str) (hnl : ∀ c ∈ l, c ≠ '\n') (ht : tameLine l = true)
    (hX : X = [] ∨ ∃ r, X = '\n' :: r) :
    tryDefAt (l ++ X) = (lineDef l).map (fun nt => (nt.1, nt.2, X)) := by
  rcases hdw : l.dropWhile isSpace with _ | ⟨c, d'⟩
  · exact absurd hdw (tameLine_ne_nil ht)
  · have hmemd : ∀ x ∈ c :: d', x ∈ l := by
      intro x hx
      exact (List.dropWhile_sublist isSpace).subset (hdw ▸ hx)
    have h1 : (l ++ X).dropWhile isSpace = c :: (d' ++ X) := by
      rw [List.dropWhile_append, hdw]
      simp
    by_cases hc : c = '['
    · subst hc
      unfold tryDefAt
      rw [h1, tryDefAtCore_cons, lineDef_of_dropWhile hdw]
      rcases he : List.dropWhile (notChar ']') d' with _ | ⟨e0, e2⟩
      · exfalso
        rw [tameLine_of_dropWhile hdw, he] at ht
        split at ht <;> simp_all
      · have he0 : e0 = ']' := by
          have := head_dropWhile_false he
          simpa [notChar] using this
        subst he0
        have hd' : d' = List.takeWhile (notChar ']') d' ++ ']' :: e2 := by
          conv_lhs => rw [← List.takeWhile_append_dropWhile (notChar ']') d']
          rw [he]
        have htww : ∀ x ∈ List.takeWhile (notChar ']') d', notChar ']' x = true :=
          fun x hx => List.mem_takeWhile_imp hx
        have hrw : d' ++ X = List.takeWhile (notChar ']') d' ++ ']' :: (e2 ++ X) := by
          conv_lhs => rw [hd']
          simp
        rw [hrw, takeWhile_break _ _ htww notChar_false, dropWhile_break _ _ htww notChar_false]
        have hmeme2 : ∀ x ∈ e2, x ∈ l := by
          intro x hx
          refine hmemd x (List.mem_cons_of_mem _ ?_)
          have hsub : List.Sublist (']' :: e2) d' := he ▸ List.dropWhile_sublist _
          exact hsub.subset (List.mem_cons_of_mem _ hx)
        rcases e2 with _ | ⟨c2, e3⟩
        · rcases htw : List.takeWhile (notChar ']') d' with _ | ⟨t0, tw'⟩ <;>
            rcases hX with rfl | ⟨r, rfl⟩ <;> rfl
        · by_cases hc2 : c2 = ':'
          · subst hc2
            rcases htw : List.takeWhile (notChar ']') d' with _ | ⟨t0, tw'⟩
            · rfl
            · rw [tameLine_of_dropWhile hdw, he, htw] at ht
              have ht' : (!(List.dropWhile isSpace e3).isEmpty) = true := ht
              rcases hf : List.dropWhile isSpace e3 with _ | ⟨f0, f'⟩
              · rw [hf] at ht'
                simp at ht'
              · have hmemf : ∀ x ∈ f0 :: f', x ∈ l := by
                  intro x hx
                  have hsub : List.Sublist (f0 :: f') e3 := hf ▸ List.dropWhile_sublist _
                  exact hmeme2 x (List.mem_cons_of_mem _ (hsub.subset hx))
                have hnlf : ∀ x ∈ f0 :: f', notChar '\n' x = true := by
                  intro x hx
                  simp [notChar, hnl x (hmemf x hx)]
                have hdw2 : List.dropWhile isSpace (e3 ++ X) = f0 :: (f' ++ X) := by
                  rw [List.dropWhile_append, hf]
                  simp
                show (match List.dropWhile isSpace (e3 ++ X) with
                  | c :: cs =>
                    some ((t0 :: tw' : Str), (c :: cs).takeWhile (notChar '\n'),
                          (c :: cs).dropWhile (notChar '\n'))
                  | [] =>
                    match (e3 ++ X).reverse.dropWhile (fun x => x == '\n') with
                    | [] => none
                    | t :: _ =>
                      some ((t0 :: tw' : Str), [t],
                            ((e3 ++ X).reverse.takeWhile (fun x => x == '\n')).reverse)) =
                  (match List.dropWhile isSpace e3 with
                    | [] => none
                    | c :: cs => some ((t0 :: tw' : Str), (c :: cs : Str))).map
                      (fun (nt : Str × Str) => (nt.1, nt.2, X))
                rw [hdw2, hf]
                have htake : (f0 :: (f' ++ X)).takeWhile (notChar '\n') = f0 :: f' := by
                  rcases hX with rfl | ⟨r, rfl⟩
                  · rw [List.append_nil]
                    exact List.takeWhile_eq_self_iff.mpr (fun x hx => hnlf x hx)
                  · have : f0 :: (f' ++ '\n' :: r) = (f0 :: f') ++ '\n' :: r := by simp
                    rw [this]
                    exact takeWhile_break _ _ hnlf (by simp [notChar])
                have hdrop : (f0 :: (f' ++ X)).dropWhile (notChar '\n') = X := by
                  rcases hX with rfl | ⟨r, rfl⟩
                  · rw [List.append_nil]
                    exact List.dropWhile_eq_nil_iff.mpr (fun x hx => hnlf x hx)
                  · have : f0 :: (f' ++ '\n' :: r) = (f0 :: f') ++ '\n' :: r := by simp
                    rw [this]
                    exact dropWhile_break _ _ hnlf (by simp [notChar])
                show (some (t0 :: tw', List.takeWhile (notChar '\n') (f0 :: (f' ++ X)),
                      List.dropWhile (notChar '\n') (f0 :: (f' ++ X))) : Option (Str × Str × Str)) =
                    some (t0 :: tw', f0 :: f', X)
                rw [htake, hdrop]
          · rcases htw : List.takeWhile (notChar ']') d' with _ | ⟨t0, tw'⟩
            · rfl
            · split
              · rename_i heq1 heq2
                injection heq2 with hq1 hq2
                injection hq2 with hq3 hq4
                exact absurd hq3 hc2
              · split
                · rename_i heq1 heq2
                  injection heq2 with hq1 hq2
                  injection hq2 with hq3 hq4
                  exact absurd hq3 hc2
                · rfl
    · unfold tryDefAt
      rw [h1, tryDefAtCore_not_open _ hc, lineDef_not_open hdw hc]
      rfl

theorem scanDefs_lines (ls : List Str) (h : ∀ l ∈ ls, docLine l = true) :
    scanDefsAux true (joinLines ls) = ls.filterMap lineDef := by
  induction ls with
  | nil => rfl
  | cons l ls' ih =>
    obtain ⟨hnl, htame⟩ := docLine_spec (h l (by simp))
    have ih' := ih (fun x hx => h x (by simp [hx]))
    cases ls' with
    | nil =>
      show scanDefsAux true l = List.filterMap lineDef [l]
      rcases htame with htame | hspace
      · have hstep := tryDefAt_tame l [] hnl htame (Or.inl rfl)
        rw [List.append_nil] at hstep
        obtain ⟨c0, l', rfl⟩ : ∃ c0 l', l = c0 :: l' := by
          cases l with
          | nil => exact absurd rfl (tameLine_ne_nil htame)
          | cons c0 l' => exact ⟨_, _, rfl⟩
        rcases hld : lineDef (c0 :: l') with _ | ⟨n, t⟩
        · rw [hld] at hstep
          rw [scanDefsAux_cons_fail hstep]
          rw [show (c0 == '\n') = false by simp [hnl c0 (by simp)]]
          have hw : scanDefsAux false (l' ++ []) = scanDefsAux false [] :=
            walkDefs [] (fun x hx => hnl x (by simp [hx]))
          rw [List.append_nil] at hw
          rw [hw]
          rw [show scanDefsAux false ([] : Str) = [] from rfl]
          simp [hld]
        · rw [hld] at hstep
          rw [scanDefsAux_cons_match hstep]
          simp [hld, scanDefsAux]
      · have hld : lineDef l = none := lineDef_allspace hspace
        have hT : tryDefAt l = none := tryDefAt_allspace hspace
        cases l with
        | nil => simp [hld, scanDefsAux]
        | cons c0 l' =>
          rw [scanDefsAux_cons_fail hT]
          rw [show (c0 == '\n') = false by simp [hnl c0 (by simp)]]
          have hw : scanDefsAux false (l' ++ []) = scanDefsAux false [] :=
            walkDefs [] (fun x hx => hnl x (by simp [hx]))
          rw [List.append_nil] at hw
          rw [hw]
          rw [show scanDefsAux false ([] : Str) = [] from rfl]
          simp [hld]
    | cons l2 ls'' =>
      show scanDefsAux true (l ++ '\n' :: joinLines (l2 :: ls'')) = _
      set J := joinLines (l2 :: ls'') with hJ
      rcases htame with htame | hspace
      · have hstep := tryDefAt_tame l ('\n' :: J) hnl htame (Or.inr ⟨J, rfl⟩)
        obtain ⟨c0, l', rfl⟩ : ∃ c0 l', l = c0 :: l' := by
          cases l with
          | nil => exact absurd rfl (tameLine_ne_nil htame)
          | cons c0 l' => exact ⟨_, _, rfl⟩
        rcases hld : lineDef (c0 :: l') with _ | ⟨n, t⟩
        · rw [hld] at hstep
          rw [List.cons_append]
          rw [scanDefsAux_cons_fail (by simpa using hstep)]
          rw [show (c0 == '\n') = false by simp [hnl c0 (by simp)]]
          rw [walkDefs ('\n' :: J) (fun x hx => hnl x (by simp [hx]))]
          rw [scanDefsAux_newline]
          rw [ih']
          simp [hld]
        · rw [hld] at hstep
          rw [List.cons_append]
          rw [scanDefsAux_cons_match (by simpa using hstep)]
          rw [scanDefsAux_newline]
          rw [ih']
          simp [hld]
      · have hld : lineDef l = none := lineDef_allspace hspace
        have hT : tryDefAt (l ++ '\n' :: J) = tryDefAt J := by
          have heq : l ++ '\n' :: J = (l ++ ['\n']) ++ J := by simp
          rw [heq]
          refine tryDefAt_ws_prefix J ?_
          intro x hx
          rcases List.mem_append.mp hx with h1 | h2
          · exact hspace x h1
          · simp only [List.mem_cons, List.not_mem_nil, or_false] at h2
            subst h2
            simp [isSpace]
        rcases hTJ : tryDefAt J with _ | ⟨n, t, rest⟩
        · cases l with
          | nil =>
            show scanDefsAux true ('\n' :: J) = _
            rw [scanDefsAux_cons_fail (by simpa using hT.trans hTJ)]
            rw [show ('\n' == '\n') = true from rfl]
            rw [ih']
            simp [hld]
          | cons c0 l' =>
            rw [List.cons_append]
            rw [scanDefsAux_cons_fail (by simpa using hT.trans hTJ)]
            rw [show (c0 == '\n') = false by simp [hnl c0 (by simp)]]
            rw [walkDefs ('\n' :: J) (fun x hx => hnl x (by simp [hx]))]
            rw [scanDefsAux_newline]
            rw [ih']
            simp [hld]
        · obtain ⟨j0, J', hJeq⟩ : ∃ j0 J', J = j0 :: J' := by
            cases hJ0 : J with
            | nil =>
              rw [hJ0] at hTJ
              exact absurd hTJ (by simp [tryDefAt, tryDefAtCore])
            | cons j0 J' => exact ⟨_, _, rfl⟩
          have hR : scanDefsAux true J = (n, t) :: scanDefsAux false rest := by
            rw [hJeq]
            exact scanDefsAux_cons_match (hJeq ▸ hTJ)
          cases l with
          | nil =>
            show scanDefsAux true ('\n' :: J) = _
            rw [scanDefsAux_cons_match (by simpa using hT.trans hTJ)]
            rw [← hR, ih']
            simp [hld]
          | cons c0 l' =>
            rw [List.cons_append]
            rw [scanDefsAux_cons_match (by simpa using hT.trans hTJ)]
            rw [← hR, ih']
            simp [hld]

/-! ## Parse-level lemmas -/

theorem parseAux_cons_fence {refs : List (Str × Str)} {ln : Nat} {fence : Bool} {l : Str}
    (ls : List Str) (h : isFenceLine l = true) :
    parseLinksAux refs ln fence (l :: ls) = parseLinksAux refs (ln + 1) (!fence) ls := by
  simp [parseLinksAux, h]

theorem parseAux_cons_infence {refs : List (Str × Str)} {ln : Nat} {l : Str}
    (ls : List Str) (h : isFenceLine l = false) :
    parseLinksAux refs ln true (l :: ls) = parseLinksAux refs (ln + 1) true ls := by
  simp [parseLinksAux, h]

theorem parseAux_cons_scan {refs : List (Str × Str)} {ln : Nat} {l : Str}
    (ls : List Str) (h : isFenceLine l = false) :
    parseLinksAux refs ln false (l :: ls) =
      lineLinks refs ln l ++ parseLinksAux refs (ln + 1) false ls := by
  simp [parseLinksAux, h]

theorem fenceAfter_cons (fence : Bool) (l : Str) (ls : List Str) :
    fenceAfter fence (l :: ls) = fenceAfter (if isFenceLine l then !fence else fence) ls := rfl

theorem parseAux_append (refs : List (Str × Str)) (xs ys : List Str) :
    ∀ (ln : Nat) (fence : Bool),
    parseLinksAux refs ln fence (xs ++ ys) =
      parseLinksAux refs ln fence xs ++
        parseLinksAux refs (ln + xs.length) (fenceAfter fence xs) ys := by
  induction xs with
  | nil => intro ln fence; simp [parseLinksAux, fenceAfter]
  | cons l xs' ih =>
    intro ln fence
    cases hf : isFenceLine l with
    | true =>
      rw [List.cons_append, parseAux_cons_fence _ hf, parseAux_cons_fence _ hf, ih,
          fenceAfter_cons]
      simp [hf, List.length_cons]
      ring_nf
    | false =>
      cases fence with
      | true =>
        rw [List.cons_append, parseAux_cons_infence _ hf, parseAux_cons_infence _ hf, ih,
            fenceAfter_cons]
        simp [hf, List.length_cons]
        ring_nf
      | false =>
        rw [List.cons_append, parseAux_cons_scan _ hf, parseAux_cons_scan _ hf, ih,
            fenceAfter_cons]
        simp [hf, List.length_cons, List.append_assoc]
        ring_nf

theorem lineLinks_line {refs : List (Str × Str)} {ln : Nat} {l : Str} {o : LinkOccurrence}
    (h : o ∈ lineLinks refs ln l) : o.line = ln := by
  unfold lineLinks inlineOccs refOccs at h
  rcases List.mem_append.mp h with h1 | h2
  · obtain ⟨tg, -, rfl⟩ := List.mem_map.mp h1
    rfl
  · obtain ⟨tn, -, hf⟩ := List.mem_filterMap.mp h2
    revert hf
    split
    · intro hf
      simp only [Option.some.injEq] at hf
      subst hf
      rfl
    · intro hf
      simp at hf

theorem parseAux_line_bounds {refs : List (Str × Str)} {o : LinkOccurrence} :
    ∀ {ls : List Str} {ln : Nat} {fence : Bool}, o ∈ parseLinksAux refs ln fence ls →
      ln ≤ o.line ∧ o.line < ln + ls.length := by
  intro ls
  induction ls with
  | nil => intro ln fence h; simp [parseLinksAux] at h
  | cons l ls' ih =>
    intro ln fence h
    cases hf : isFenceLine l with
    | true =>
      rw [parseAux_cons_fence _ hf] at h
      have := ih h
      simp only [List.length_cons]
      omega
    | false =>
      cases fence with
      | true =>
        rw [parseAux_cons_infence _ hf] at h
        have := ih h
        simp only [List.length_cons]
        omega
      | false =>
        rw [parseAux_cons_scan _ hf] at h
        rcases List.mem_append.mp h with h1 | h2
        · have := lineLinks_line h1
          simp only [List.length_cons]
          omega
        · have := ih h2
          simp only [List.length_cons]
          omega

theorem filter_lineLinks_self (refs : List (Str × Str)) (ln : Nat) (l : Str) :
    (lineLinks refs ln l).filter (fun o => o.line == ln) = lineLinks refs ln l :=
  List.filter_eq_self.mpr (fun o ho => by simp [lineLinks_line ho])

theorem filter_lineLinks_ne {n : Nat} (refs : List (Str × Str)) (ln : Nat) (l : Str)
    (h : n ≠ ln) : (lineLinks refs ln l).filter (fun o => o.line == n) = [] :=
  List.filter_eq_nil_iff.mpr (fun o ho => by simp [lineLinks_line ho, Ne.symm h])

theorem parseAux_filter (refs : List (Str × Str)) :
    ∀ (ls : List Str) (ln : Nat) (fence : Bool) (n : Nat),
    (parseLinksAux refs ln fence ls).filter (fun o => o.line == n) = [] ∨
      (ln ≤ n ∧ ∃ l, ls[n - ln]? = some l ∧
        (parseLinksAux refs ln fence ls).filter (fun o => o.line == n) = lineLinks refs n l) := by
  intro ls
  induction ls with
  | nil => intro ln fence n; left; simp [parseLinksAux]
  | cons l ls' ih =>
    intro ln fence n
    have step : ∀ (fence' : Bool),
        (parseLinksAux refs (ln + 1) fence' ls').filter (fun o => o.line == n) = [] ∨
          (ln + 1 ≤ n ∧ ∃ l', ls'[n - (ln + 1)]? = some l' ∧
            (parseLinksAux refs (ln + 1) fence' ls').filter (fun o => o.line == n) =
              lineLinks refs n l') := fun fence' => ih (ln + 1) fence' n
    cases hf : isFenceLine l with
    | true =>
      rw [parseAux_cons_fence _ hf]
      rcases step (!fence) with h1 | ⟨h2, l', hget, heq⟩
      · exact Or.inl h1
      · right
        refine ⟨by omega, l', ?_, heq⟩
        have hidx : n - ln = (n - (ln + 1)) + 1 := by omega
        rw [hidx, List.getElem?_cons_succ]
        exact hget
    | false =>
      cases fence with
      | true =>
        rw [parseAux_cons_infence _ hf]
        rcases step true with h1 | ⟨h2, l', hget, heq⟩
        · exact Or.inl h1
        · right
          refine ⟨by omega, l', ?_, heq⟩
          have hidx : n - ln = (n - (ln + 1)) + 1 := by omega
          rw [hidx, List.getElem?_cons_succ]
          exact hget
      | false =>
        rw [parseAux_cons_scan _ hf, List.filter_append]
        by_cases hn : n = ln
        · subst hn
          right
          refine ⟨le_refl _, l, by simp, ?_⟩
          rw [filter_lineLinks_self]
          have hrec : (parseLinksAux refs (n + 1) false ls').filter (fun o => o.line == n) = [] := by
            refine List.filter_eq_nil_iff.mpr (fun o ho => ?_)
            have := parseAux_line_bounds ho
            simp only [beq_iff_eq]
            omega
          rw [hrec, List.append_nil]
        · rw [filter_lineLinks_ne _ _ _ hn, List.nil_append]
          rcases step false with h1 | ⟨h2, l', hget, heq⟩
          · exact Or.inl h1
          · right
            refine ⟨by omega, l', ?_, heq⟩
            have hidx : n - ln = (n - (ln + 1)) + 1 := by omega
            rw [hidx, List.getElem?_cons_succ]
            exact hget

theorem fenceCount_cons (l : Str) (ls : List Str) :
    fenceCount (l :: ls) = (if isFenceLine l then 1 else 0) + fenceCount ls := by
  unfold fenceCount
  cases hf : isFenceLine l with
  | true => rw [List.filter_cons_of_pos (by simp [hf])]; simp [Nat.add_comm]
  | false => rw [List.filter_cons_of_neg (by simp [hf])]; simp

theorem fenceCount_append (xs ys : List Str) :
    fenceCount (xs ++ ys) = fenceCount xs + fenceCount ys := by
  unfold fenceCount
  rw [List.filter_append, List.length_append]

theorem parseAux_parity {refs : List (Str × Str)} {o : LinkOccurrence} :
    ∀ {ls : List Str} {ln : Nat} {fence : Bool}, o ∈ parseLinksAux refs ln fence ls →
      ∃ k l, o.line = ln + k ∧ ls[k]? = some l ∧ isFenceLine l = false ∧
        ((fenceCount (ls.take k) % 2 = 1) ↔ fence = true) := by
  intro ls
  induction ls with
  | nil => intro ln fence h; simp [parseLinksAux] at h
  | cons l ls' ih =>
    intro ln fence h
    cases hf : isFenceLine l with
    | true =>
      rw [parseAux_cons_fence _ hf] at h
      obtain ⟨k, l', h1, h2, h3, h4⟩ := ih h
      refine ⟨k + 1, l', by omega, by rw [List.getElem?_cons_succ]; exact h2, h3, ?_⟩
      rw [List.take_succ_cons, fenceCount_cons, if_pos hf]
      cases fence with
      | true =>
        simp only [Bool.not_true] at h4
        have h5 : fenceCount (List.take k ls') % 2 ≠ 1 := by
          intro hx
          exact absurd (h4.mp hx) (by simp)
        refine ⟨fun _ => rfl, fun _ => by omega⟩
      | false =>
        simp only [Bool.not_false] at h4
        have h5 : fenceCount (List.take k ls') % 2 = 1 := h4.mpr (by trivial)
        constructor
        · intro hx
          exfalso
          omega
        · intro hx
          simp at hx
    | false =>
      cases fence with
      | true =>
        rw [parseAux_cons_infence _ hf] at h
        obtain ⟨k, l', h1, h2, h3, h4⟩ := ih h
        refine ⟨k + 1, l', by omega, by rw [List.getElem?_cons_succ]; exact h2, h3, ?_⟩
        rw [List.take_succ_cons, fenceCount_cons, if_neg (by simp [hf])]
        simpa using h4
      | false =>
        rw [parseAux_cons_scan _ hf] at h
        rcases List.mem_append.mp h with h1 | h2
        · refine ⟨0, l, by simpa using lineLinks_line h1, by simp, hf, by simp [fenceCount]⟩
        · obtain ⟨k, l', hh1, hh2, hh3, hh4⟩ := ih h2
          refine ⟨k + 1, l', by omega, by rw [List.getElem?_cons_succ]; exact hh2, hh3, ?_⟩
          rw [List.take_succ_cons, fenceCount_cons, if_neg (by simp [hf])]
          simpa using hh4

theorem pairwise_le_of_const {xs : List Nat} (v : Nat) (h : ∀ x ∈ xs, x = v) :
    List.Pairwise (fun a b => a ≤ b) xs := by
  induction xs with
  | nil => exact List.Pairwise.nil
  | cons x xs' ih =>
    refine List.Pairwise.cons ?_ (ih (fun y hy => h y (by simp [hy])))
    intro y hy
    rw [h x (by simp), h y (by simp [hy])]

theorem parseAux_pairwise (refs : List (Str × Str)) :
    ∀ (ls : List Str) (ln : Nat) (fence : Bool),
    List.Pairwise (fun a b => a ≤ b) ((parseLinksAux refs ln fence ls).map (fun o => o.line)) := by
  intro ls
  induction ls with
  | nil => intro ln fence; simp [parseLinksAux]
  | cons l ls' ih =>
    intro ln fence
    cases hf : isFenceLine l with
    | true => rw [parseAux_cons_fence _ hf]; exact ih _ _
    | false =>
      cases fence with
      | true => rw [parseAux_cons_infence _ hf]; exact ih _ _
      | false =>
        rw [parseAux_cons_scan _ hf, List.map_append]
        rw [List.pairwise_append]
        refine ⟨pairwise_le_of_const ln (fun x hx => ?_), ih _ _, fun x hx y hy => ?_⟩
        · obtain ⟨o, ho, rfl⟩ := List.mem_map.mp hx
          exact lineLinks_line ho
        · obtain ⟨o, ho, rfl⟩ := List.mem_map.mp hx
          obtain ⟨o', ho', rfl⟩ := List.mem_map.mp hy
          have h1 := lineLinks_line ho
          have h2 := (parseAux_line_bounds ho').1
          omega

/-! ## Lookup and fence-state glue -/

theorem lookupLast_append_right {k : Str} {ys : List (Str × Str)} {v : Str}
    (xs : List (Str × Str)) (h : lookupLast k ys = some v) :
    lookupLast k (xs ++ ys) = some v := by
  induction xs with
  | nil => exact h
  | cons nt xs' ih =>
    rw [List.cons_append]
    unfold lookupLast
    rw [ih]

theorem lookupLast_append_left {k : Str} {ys : List (Str × Str)}
    (xs : List (Str × Str)) (h : lookupLast k ys = none) :
    lookupLast k (xs ++ ys) = lookupLast k xs := by
  induction xs with
  | nil => exact h
  | cons nt xs' ih =>
    rw [List.cons_append]
    unfold lookupLast
    rw [ih]

theorem lookupLast_none {k : Str} {xs : List (Str × Str)} (h : ∀ p ∈ xs, p.1 ≠ k) :
    lookupLast k xs = none := by
  induction xs with
  | nil => rfl
  | cons nt xs' ih =>
    unfold lookupLast
    rw [ih (fun p hp => h p (by simp [hp]))]
    simp [h nt (by simp)]

theorem lookupLast_singleton (k : Str) (v : Str) : lookupLast k [(k, v)] = some v := by
  simp [lookupLast]

theorem fenceAfter_append (b : Bool) (xs ys : List Str) :
    fenceAfter b (xs ++ ys) = fenceAfter (fenceAfter b xs) ys := by
  induction xs generalizing b with
  | nil => rfl
  | cons l xs' ih => rw [List.cons_append, fenceAfter_cons, fenceAfter_cons, ih]

theorem fenceAfter_no_fence {b : Bool} {xs : List Str} (h : ∀ l ∈ xs, isFenceLine l = false) :
    fenceAfter b xs = b := by
  induction xs with
  | nil => rfl
  | cons l xs' ih =>
    rw [fenceAfter_cons, if_neg (by simp [h l (by simp)])]
    exact ih (fun x hx => h x (by simp [hx]))

theorem lineOkFor_spec {key l : Str} (h : lineOkFor key l = true) :
    docLine l = true ∧ ∀ n t, lineDef l = some (n, t) → lowerStr n ≠ key := by
  unfold lineOkFor at h
  rw [Bool.and_eq_true] at h
  refine ⟨h.1, fun n t hnt => ?_⟩
  have h2 := h.2
  rw [hnt] at h2
  simpa using h2

theorem buildRefs_joinLines {ls : List Str} (h : ∀ l ∈ ls, docLine l = true) :
    buildRefs (joinLines ls) =
      (ls.filterMap lineDef).map (fun nt => (lowerStr nt.1, strip nt.2)) := by
  unfold buildRefs scanDefs
  rw [scanDefs_lines ls h]

theorem parse_links_joinLines {ls : List Str} (hne : ls ≠ [])
    (h : ∀ l ∈ ls, ∀ c ∈ l, c ≠ '\n') :
    parse_links (joinLines ls) = parseLinksAux (buildRefs (joinLines ls)) 1 false ls := by
  unfold parse_links
  rw [splitLines_joinLines hne h]

theorem lookupLast_no_key {key : Str} {A : List Str}
    (h : ∀ l ∈ A, lineOkFor key l = true) :
    lookupLast key ((A.filterMap lineDef).map (fun nt => (lowerStr nt.1, strip nt.2))) = none := by
  refine lookupLast_none ?_
  intro p hp
  obtain ⟨nt, hnt, rfl⟩ := List.mem_map.mp hp
  obtain ⟨l, hl, hld⟩ := List.mem_filterMap.mp hnt
  exact (lineOkFor_spec (h l hl)).2 nt.1 nt.2 (by rw [hld])

/-! ## Claims -/

/-- C7: for every path that does not exist on the filesystem, `check_file`
returns (does not raise) a result carrying the given file path, the error
marker "File not found", and an empty links list. -/
theorem claim_C7 (fs : Str → Option Str) (file_path : Str) (h : fs file_path = none) :
    check_file fs file_path =
      { file := file_path, error := some ("File not found".toList), total_links := none,
        links := [] } := by
  unfold check_file
  rw [h]

/-- Witness for C7 at a concrete filesystem and path. -/
theorem claim_C7_witness :
    check_file (fun _ => none) ("missing.md".toList) =
      { file := ("missing.md".toList), error := some ("File not found".toList),
        total_links := none, links := [] } :=
  claim_C7 (fun _ => none) ("missing.md".toList) rfl

/-- C10: every occurrence returned by `parse_links` has a line number
between 1 and the number of newline-separated lines of the content, and
the line numbers along the returned list are nondecreasing. -/
theorem claim_C10 (content : Str) :
    (∀ o ∈ parse_links content, 1 ≤ o.line ∧ o.line ≤ (splitLines content).length) ∧
    List.Pairwise (fun a b => a ≤ b) ((parse_links content).map (fun o => o.line)) := by
  constructor
  · intro o ho
    unfold parse_links at ho
    have := parseAux_line_bounds ho
    omega
  · unfold parse_links
    exact parseAux_pairwise _ _ _ _

/-- Witness for C10 at a concrete document and occurrence. -/
theorem claim_C10_witness :
    1 ≤ (⟨"q".toList, "r".toList, 1⟩ : LinkOccurrence).line ∧
      (⟨"q".toList, "r".toList, 1⟩ : LinkOccurrence).line ≤
        (splitLines ("[q](r)\ntail".toList)).length :=
  (claim_C10 ("[q](r)\ntail".toList)).1 ⟨"q".toList, "r".toList, 1⟩ (by decide)

/-- C3: no occurrence originates from a fence-marker line, and none from a
line lying strictly inside a fenced region (odd number of marker lines
before it). -/
theorem claim_C3 (content : Str) (n : Nat) (l : Str)
    (hget : (splitLines content)[n - 1]? = some l) (h1 : 1 ≤ n)
    (hcond : isFenceLine l = true ∨
      fenceCount ((splitLines content).take (n - 1)) % 2 = 1) :
    ∀ o ∈ parse_links content, o.line ≠ n := by
  intro o ho hne
  unfold parse_links at ho
  obtain ⟨k, l', hk1, hk2, hk3, hk4⟩ := parseAux_parity ho
  have hkn : k = n - 1 := by omega
  subst hkn
  rw [hget] at hk2
  have hl : l = l' := by injection hk2
  subst hl
  rcases hcond with hc | hc
  · rw [hk3] at hc
    exact Bool.noConfusion hc
  · have := hk4.mp hc
    exact Bool.noConfusion this

/-- Witness for C3 at a concrete document: line 2 sits between the two
fence markers, so the link written there yields no occurrence; the line-1
occurrence indeed has a line number different from 2. -/
theorem claim_C3_witness : (⟨"q".toList, "r".toList, 1⟩ : LinkOccurrence).line ≠ 3 :=
  claim_C3 ("[q](r)\n\x60\x60\x60\n[a](b)\n\x60\x60\x60".toList) 3 ("[a](b)".toList)
    (by decide) (by decide) (Or.inr (by decide))
    ⟨"q".toList, "r".toList, 1⟩ (by decide)

/-- C9: if the total number of fence-marker lines is odd, every returned
occurrence is followed by a later fence-marker line; in particular no line
after the last marker contributes any occurrence. -/
theorem claim_C9 (content : Str) (hodd : fenceCount (splitLines content) % 2 = 1) :
    ∀ o ∈ parse_links content, ∃ m l, o.line < m ∧
      (splitLines content)[m - 1]? = some l ∧ isFenceLine l = true := by
  intro o ho
  unfold parse_links at ho
  obtain ⟨k, l', hk1, hk2, hk3, hk4⟩ := parseAux_parity ho
  have heven : fenceCount ((splitLines content).take k) % 2 = 0 := by
    rcases Nat.mod_two_eq_zero_or_one (fenceCount ((splitLines content).take k)) with h | h
    · exact h
    · exact absurd (hk4.mp h) (by simp)
  have htk : (splitLines content).take (k + 1) = (splitLines content).take k ++ [l'] := by
    rw [List.take_succ, hk2]
    rfl
  have hsplit : fenceCount (splitLines content) =
      fenceCount ((splitLines content).take (k + 1)) +
        fenceCount ((splitLines content).drop (k + 1)) := by
    conv_lhs => rw [← List.take_append_drop (k + 1) (splitLines content)]
    exact fenceCount_append _ _
  have hone : fenceCount ((splitLines content).take (k + 1)) =
      fenceCount ((splitLines content).take k) := by
    rw [htk, fenceCount_append]
    simp [fenceCount, hk3]
  have hoddrop : fenceCount ((splitLines content).drop (k + 1)) % 2 = 1 := by omega
  have hmark : ∃ (j : Nat) (lj : Str), ((splitLines content).drop (k + 1))[j]? = some lj ∧
      isFenceLine lj = true := by
    have hne : ((splitLines content).drop (k + 1)).filter (fun l => isFenceLine l) ≠ [] := by
      intro h0
      unfold fenceCount at hoddrop
      rw [h0] at hoddrop
      simp at hoddrop
    obtain ⟨x, hx⟩ := List.exists_mem_of_ne_nil _ hne
    have hx2 := List.mem_filter.mp hx
    obtain ⟨j, hj⟩ := List.get?_of_mem hx2.1
    refine ⟨j, x, ?_, hx2.2⟩
    rw [← List.get?_eq_getElem?]
    exact hj
  obtain ⟨j, lj, hj, hjf⟩ := hmark
  refine ⟨k + 1 + j + 1, lj, by omega, ?_, hjf⟩
  have hidx : (splitLines content)[(k + 1) + j]? = some lj := by
    rw [← List.getElem?_drop (splitLines content) (k + 1) j]
    exact hj
  simpa using hidx

/-- Witness for C9 at a concrete document with an unterminated fence. -/
theorem claim_C9_witness :
    ∃ m l, (⟨"q".toList, "r".toList, 1⟩ : LinkOccurrence).line < m ∧
      (splitLines ("[q](r)\n\x60\x60\x60\n[a](b)".toList))[m - 1]? = some l ∧
      isFenceLine l = true :=
  claim_C9 ("[q](r)\n\x60\x60\x60\n[a](b)".toList) (by decide)
    ⟨"q".toList, "r".toList, 1⟩ (by decide)

/-- C1: the two-line example yields exactly the two expected occurrences
in order, and in general the occurrences of any single line form the
inline-link matches of that line followed by its resolved reference-use
matches. -/
theorem claim_C1 :
    parse_links ("See [Home](./index.md) and [API][api].\n[api]: ./api.md".toList) =
      [⟨"Home".toList, "./index.md".toList, 1⟩, ⟨"API".toList, "./api.md".toList, 1⟩] ∧
    ∀ (content : Str) (n : Nat),
      (parse_links content).filter (fun o => o.line == n) = [] ∨
        ∃ l, (splitLines content)[n - 1]? = some l ∧
          (parse_links content).filter (fun o => o.line == n) =
            inlineOccs n l ++ refOccs (buildRefs content) n l := by
  constructor
  · decide
  · intro content n
    unfold parse_links
    rcases parseAux_filter (buildRefs content) (splitLines content) 1 false n with h | ⟨hle, l, hget, heq⟩
    · exact Or.inl h
    · exact Or.inr ⟨l, hget, heq⟩

/-- The occurrences of the designated line `u` inside a document built
from lines `A ++ u :: B`: when the fence state is off at `u`, the filter
of the parse at `u`'s line number is exactly `u`'s own `lineLinks`. -/
theorem parse_filter_at (A B : List Str) (u : Str)
    (hnl : ∀ l ∈ A ++ u :: B, ∀ c ∈ l, c ≠ '\n')
    (hfa : fenceAfter false A = false) (hu : isFenceLine u = false) :
    (parse_links (joinLines (A ++ u :: B))).filter (fun o => o.line == A.length + 1) =
      lineLinks (buildRefs (joinLines (A ++ u :: B))) (A.length + 1) u := by
  have hne : A ++ u :: B ≠ [] := by simp
  rw [parse_links_joinLines hne hnl]
  rw [parseAux_append, hfa, parseAux_cons_scan _ hu]
  have hln : 1 + A.length = A.length + 1 := by omega
  rw [hln]
  rw [List.filter_append, List.filter_append]
  have e1 : (parseLinksAux (buildRefs (joinLines (A ++ u :: B))) 1 false A).filter
      (fun o => o.line == A.length + 1) = [] := by
    refine List.filter_eq_nil_iff.mpr (fun o ho => ?_)
    have := parseAux_line_bounds ho
    simp only [beq_iff_eq]
    omega
  have e3 : (parseLinksAux (buildRefs (joinLines (A ++ u :: B))) (A.length + 1 + 1) false B).filter
      (fun o => o.line == A.length + 1) = [] := by
    refine List.filter_eq_nil_iff.mpr (fun o ho => ?_)
    have := parseAux_line_bounds ho
    simp only [beq_iff_eq]
    omega
  rw [e1, e3, filter_lineLinks_self, List.nil_append, List.append_nil]

theorem lineLinks_useLine (refs : List (Str × Str)) (ln : Nat) {text name : Str}
    (ht : plainSeg text = true) (hn : plainSeg name = true) :
    lineLinks refs ln (useLine text name) =
      (match lookupLast (lowerStr name) refs with
       | some tgt => [⟨text, tgt, ln⟩]
       | none => []) := by
  unfold lineLinks inlineOccs refOccs
  rw [scanInline_useLine _ ht hn, scanUse_useLine ht hn]
  cases h : lookupLast (lowerStr name) refs with
  | none => simp [h]
  | some tgt => simp [h]

/-- C2: the reference-definition table is built without fence gating: a
definition line placed between two fence markers is still registered, and
a reference use of that name on a non-fenced line resolves to its target
and produces an occurrence. -/
theorem claim_C2 (pre post : List Str) (name target text : Str)
    (hpre : ∀ l ∈ pre, lineOkFor (lowerStr name) l = true ∧ isFenceLine l = false)
    (hpost : ∀ l ∈ post, lineOkFor (lowerStr name) l = true)
    (hname : plainSeg name = true) (htext : plainSeg text = true)
    (htgt : plainTarget target = true) :
    lookupLast (lowerStr name)
        (buildRefs (joinLines (pre ++ fenceLine :: defLine name target :: fenceLine ::
          useLine text name :: post))) = some target ∧
      (parse_links (joinLines (pre ++ fenceLine :: defLine name target :: fenceLine ::
          useLine text name :: post))).filter (fun o => o.line == pre.length + 4) =
        [⟨text, target, pre.length + 4⟩] := by
  have hnf : ∀ l ∈ pre, isFenceLine l = false := fun l hl => (hpre l hl).2
  have hdocAll : ∀ l ∈ pre ++ fenceLine :: defLine name target :: fenceLine ::
      useLine text name :: post, docLine l = true := by
    intro l hl
    rcases List.mem_append.mp hl with h1 | h2
    · exact (lineOkFor_spec (hpre l h1).1).1
    · simp only [List.mem_cons] at h2
      rcases h2 with rfl | rfl | rfl | rfl | h3
      · exact docLine_fenceLine
      · exact docLine_defLine hname htgt
      · exact docLine_fenceLine
      · exact docLine_useLine htext hname
      · exact (lineOkFor_spec (hpost l h3)).1
  have hnlAll : ∀ l ∈ pre ++ fenceLine :: defLine name target :: fenceLine ::
      useLine text name :: post, ∀ c ∈ l, c ≠ '\n' :=
    fun l hl => (docLine_spec (hdocAll l hl)).1
  have hfm : (pre ++ fenceLine :: defLine name target :: fenceLine ::
      useLine text name :: post).filterMap lineDef =
      pre.filterMap lineDef ++ ((name, target) :: post.filterMap lineDef) := by
    rw [List.filterMap_append]
    congr 1
    simp [List.filterMap_cons, lineDef_fenceLine, lineDef_defLine hname htgt,
      lineDef_useLine htext]
  have hlook : lookupLast (lowerStr name)
      (buildRefs (joinLines (pre ++ fenceLine :: defLine name target :: fenceLine ::
        useLine text name :: post))) = some target := by
    rw [buildRefs_joinLines hdocAll, hfm, List.map_append]
    refine lookupLast_append_right _ ?_
    rw [List.map_cons]
    show lookupLast (lowerStr name) ((lowerStr name, strip target) ::
      (post.filterMap lineDef).map (fun nt => (lowerStr nt.1, strip nt.2))) = some target
    unfold lookupLast
    rw [lookupLast_no_key hpost]
    simp [strip_of_no_space (plainTarget_spec htgt).2]
  refine ⟨hlook, ?_⟩
  have hshape : pre ++ fenceLine :: defLine name target :: fenceLine ::
      useLine text name :: post =
      (pre ++ [fenceLine, defLine name target, fenceLine]) ++ useLine text name :: post := by
    simp
  have hfa : fenceAfter false (pre ++ [fenceLine, defLine name target, fenceLine]) = false := by
    rw [fenceAfter_append, fenceAfter_no_fence hnf]
    rw [fenceAfter_cons, if_pos isFenceLine_fenceLine]
    rw [fenceAfter_cons, if_neg (by simp [isFenceLine_defLine])]
    rw [fenceAfter_cons, if_pos isFenceLine_fenceLine]
    rfl
  have hmain := parse_filter_at (pre ++ [fenceLine, defLine name target, fenceLine]) post
    (useLine text name) (by rw [← hshape]; exact hnlAll) hfa (isFenceLine_useLine _ _)
  rw [← hshape] at hmain
  have hlen : (pre ++ [fenceLine, defLine name target, fenceLine]).length = pre.length + 3 := by
    simp
  rw [hlen] at hmain
  rw [hmain, lineLinks_useLine _ _ htext hname, hlook]

/-- C4: with two definitions of the same (lowercased) name, the later one
wins: a use of the name resolves to the second target, and the dict maps
the key to the second target. -/
theorem claim_C4 (pre mid post : List Str) (x tgt1 tgt2 text : Str)
    (hpre : ∀ l ∈ pre, lineOkFor (lowerStr x) l = true)
    (hmid : ∀ l ∈ mid, lineOkFor (lowerStr x) l = true)
    (hpost : ∀ l ∈ post, lineOkFor (lowerStr x) l = true)
    (hfa1 : fenceAfter false pre = false) (hfa2 : fenceAfter false mid = false)
    (hx : plainSeg x = true) (htext : plainSeg text = true)
    (h1 : plainTarget tgt1 = true) (h2 : plainTarget tgt2 = true) :
    lookupLast (lowerStr x)
        (buildRefs (joinLines (pre ++ defLine x tgt1 :: mid ++ defLine x tgt2 ::
          useLine text x :: post))) = some tgt2 ∧
      (parse_links (joinLines (pre ++ defLine x tgt1 :: mid ++ defLine x tgt2 ::
          useLine text x :: post))).filter
          (fun o => o.line == pre.length + mid.length + 3) =
        [⟨text, tgt2, pre.length + mid.length + 3⟩] := by
  have hdocAll : ∀ l ∈ pre ++ defLine x tgt1 :: mid ++ defLine x tgt2 ::
      useLine text x :: post, docLine l = true := by
    intro l hl
    have hl' : l ∈ pre ∨ l = defLine x tgt1 ∨ l ∈ mid ∨ l = defLine x tgt2 ∨
        l = useLine text x ∨ l ∈ post := by
      simpa [List.mem_append, List.mem_cons, or_assoc] using hl
    rcases hl' with hh | rfl | hh | rfl | rfl | hh
    · exact (lineOkFor_spec (hpre l hh)).1
    · exact docLine_defLine hx h1
    · exact (lineOkFor_spec (hmid l hh)).1
    · exact docLine_defLine hx h2
    · exact docLine_useLine htext hx
    · exact (lineOkFor_spec (hpost l hh)).1
  have hnlAll : ∀ l ∈ pre ++ defLine x tgt1 :: mid ++ defLine x tgt2 ::
      useLine text x :: post, ∀ c ∈ l, c ≠ '\n' :=
    fun l hl => (docLine_spec (hdocAll l hl)).1
  have e0 : (defLine x tgt2 :: useLine text x :: post).filterMap lineDef =
      (x, tgt2) :: post.filterMap lineDef := by
    simp [List.filterMap_cons, lineDef_defLine hx h2, lineDef_useLine htext]
  have hfm : (pre ++ defLine x tgt1 :: mid ++ defLine x tgt2 ::
      useLine text x :: post).filterMap lineDef =
      (pre.filterMap lineDef ++ (x, tgt1) :: mid.filterMap lineDef) ++
        ((x, tgt2) :: post.filterMap lineDef) := by
    rw [List.filterMap_append, List.filterMap_append, e0]
    simp [List.filterMap_cons, lineDef_defLine hx h1]
  have hin2 : lookupLast (lowerStr x) ((lowerStr x, strip tgt2) ::
      (post.filterMap lineDef).map (fun nt => (lowerStr nt.1, strip nt.2))) =
      some (strip tgt2) := by
    unfold lookupLast
    rw [lookupLast_no_key hpost]
    simp
  have hlook : lookupLast (lowerStr x)
      (buildRefs (joinLines (pre ++ defLine x tgt1 :: mid ++ defLine x tgt2 ::
        useLine text x :: post))) = some tgt2 := by
    rw [buildRefs_joinLines hdocAll, hfm, List.map_append, List.map_cons]
    rw [lookupLast_append_right _ hin2]
    rw [strip_of_no_space (plainTarget_spec h2).2]
  refine ⟨hlook, ?_⟩
  have hshape : pre ++ defLine x tgt1 :: mid ++ defLine x tgt2 :: useLine text x :: post =
      ((pre ++ defLine x tgt1 :: mid) ++ [defLine x tgt2]) ++ useLine text x :: post := by
    simp
  have hfa : fenceAfter false ((pre ++ defLine x tgt1 :: mid) ++ [defLine x tgt2]) = false := by
    have ha : fenceAfter false (defLine x tgt1 :: mid) = false := by
      rw [fenceAfter_cons, if_neg (by simp [isFenceLine_defLine])]
      exact hfa2
    have hb : fenceAfter false (pre ++ defLine x tgt1 :: mid) = false := by
      rw [fenceAfter_append, hfa1]
      exact ha
    rw [fenceAfter_append, hb]
    rw [fenceAfter_cons, if_neg (by simp [isFenceLine_defLine])]
    rfl
  have hmain := parse_filter_at ((pre ++ defLine x tgt1 :: mid) ++ [defLine x tgt2]) post
    (useLine text x) (by rw [← hshape]; exact hnlAll) hfa (isFenceLine_useLine _ _)
  rw [← hshape] at hmain
  have hlen : ((pre ++ defLine x tgt1 :: mid) ++ [defLine x tgt2]).length =
      pre.length + mid.length + 2 := by
    simp only [List.length_append, List.length_cons, List.length_nil]
    omega
  rw [hlen] at hmain
  have h23 : pre.length + mid.length + 2 + 1 = pre.length + mid.length + 3 := rfl
  rw [h23] at hmain
  rw [hmain, lineLinks_useLine _ _ htext hx, hlook]

/-- C6: a reference use whose lowercased name has no entry in the table
contributes zero occurrences, and the parse returns normally (the name is
simply absent from the dict). -/
theorem claim_C6 (pre post : List Str) (nm text : Str)
    (hpre : ∀ l ∈ pre, lineOkFor (lowerStr nm) l = true)
    (hpost : ∀ l ∈ post, lineOkFor (lowerStr nm) l = true)
    (hfa : fenceAfter false pre = false)
    (hn : plainSeg nm = true) (htext : plainSeg text = true) :
    lookupLast (lowerStr nm)
        (buildRefs (joinLines (pre ++ useLine text nm :: post))) = none ∧
      (parse_links (joinLines (pre ++ useLine text nm :: post))).filter
          (fun o => o.line == pre.length + 1) = [] := by
  have hdocAll : ∀ l ∈ pre ++ useLine text nm :: post, docLine l = true := by
    intro l hl
    rcases List.mem_append.mp hl with h1 | h2
    · exact (lineOkFor_spec (hpre l h1)).1
    · simp only [List.mem_cons] at h2
      rcases h2 with rfl | h3
      · exact docLine_useLine htext hn
      · exact (lineOkFor_spec (hpost l h3)).1
  have hnlAll : ∀ l ∈ pre ++ useLine text nm :: post, ∀ c ∈ l, c ≠ '\n' :=
    fun l hl => (docLine_spec (hdocAll l hl)).1
  have hfm : (pre ++ useLine text nm :: post).filterMap lineDef =
      pre.filterMap lineDef ++ post.filterMap lineDef := by
    rw [List.filterMap_append]
    congr 1
    simp [List.filterMap_cons, lineDef_useLine htext]
  have hlook : lookupLast (lowerStr nm)
      (buildRefs (joinLines (pre ++ useLine text nm :: post))) = none := by
    rw [buildRefs_joinLines hdocAll, hfm, List.map_append]
    rw [lookupLast_append_left _ (lookupLast_no_key hpost)]
    exact lookupLast_no_key hpre
  refine ⟨hlook, ?_⟩
  have hmain := parse_filter_at pre post (useLine text nm) hnlAll hfa (isFenceLine_useLine _ _)
  rw [hmain, lineLinks_useLine _ _ htext hn, hlook]

theorem lineLinks_defLine (refs : List (Str × Str)) (ln : Nat) {name target : Str}
    (hn : plainSeg name = true) (hg : plainSeg target = true) :
    lineLinks refs ln (defLine name target) = [] := by
  unfold lineLinks inlineOccs refOccs
  rw [scanInline_defLine _ hn hg, scanUse_defLine hn hg]
  rfl

theorem parseAux_congr (refs : List (Str × Str)) (ps : List (Str × Str))
    (h : ∀ p ∈ ps, isFenceLine p.1 = isFenceLine p.2 ∧
      ∀ n, lineLinks refs n p.1 = lineLinks refs n p.2) :
    ∀ (ln : Nat) (fence : Bool),
    parseLinksAux refs ln fence (ps.map Prod.fst) =
      parseLinksAux refs ln fence (ps.map Prod.snd) := by
  induction ps with
  | nil => intro ln fence; rfl
  | cons p ps' ih =>
    intro ln fence
    obtain ⟨hf, hll⟩ := h p (by simp)
    have ih' := ih (fun q hq => h q (by simp [hq]))
    simp only [List.map_cons]
    cases hf1 : isFenceLine p.1 with
    | true =>
      rw [parseAux_cons_fence _ hf1, parseAux_cons_fence _ (by rw [← hf]; exact hf1), ih' _ _]
    | false =>
      cases fence with
      | true =>
        rw [parseAux_cons_infence _ hf1, parseAux_cons_infence _ (by rw [← hf]; exact hf1),
          ih' _ _]
      | false =>
        rw [parseAux_cons_scan _ hf1, parseAux_cons_scan _ (by rw [← hf]; exact hf1),
          ih' _ _, hll ln]

/-- C5: reference resolution is case-insensitive and invariant under case
changes: replacing the definition name and the use name by any names with
the same lowercase form yields the same parse result, and a use whose
lowercase form matches the definition resolves to the target. -/
theorem claim_C5 (pre mid post : List Str) (a b c d tgtv text : Str)
    (hpre : ∀ l ∈ pre, lineOkFor (lowerStr a) l = true)
    (hmid : ∀ l ∈ mid, lineOkFor (lowerStr a) l = true)
    (hpost : ∀ l ∈ post, lineOkFor (lowerStr a) l = true)
    (hfa1 : fenceAfter false pre = false) (hfa2 : fenceAfter false mid = false)
    (ha : plainSeg a = true) (hb : plainSeg b = true) (hc : plainSeg c = true)
    (hd : plainSeg d = true) (htgt : plainTarget tgtv = true) (htext : plainSeg text = true)
    (hba : lowerStr b = lowerStr a) (hca : lowerStr c = lowerStr a)
    (hdb : lowerStr d = lowerStr b) :
    parse_links (joinLines (pre ++ defLine a tgtv :: mid ++ useLine text b :: post)) =
      parse_links (joinLines (pre ++ defLine c tgtv :: mid ++ useLine text d :: post)) ∧
    (parse_links (joinLines (pre ++ defLine a tgtv :: mid ++ useLine text b :: post))).filter
        (fun o => o.line == pre.length + mid.length + 2) =
      [⟨text, tgtv, pre.length + mid.length + 2⟩] := by
  have htgtp : plainSeg tgtv = true := (plainTarget_spec htgt).1
  have hdoc1 : ∀ l ∈ pre ++ defLine a tgtv :: mid ++ useLine text b :: post,
      docLine l = true := by
    intro l hl
    have hl' : l ∈ pre ∨ l = defLine a tgtv ∨ l ∈ mid ∨ l = useLine text b ∨ l ∈ post := by
      simpa [List.mem_append, List.mem_cons, or_assoc] using hl
    rcases hl' with hh | rfl | hh | rfl | hh
    · exact (lineOkFor_spec (hpre l hh)).1
    · exact docLine_defLine ha htgt
    · exact (lineOkFor_spec (hmid l hh)).1
    · exact docLine_useLine htext hb
    · exact (lineOkFor_spec (hpost l hh)).1
  have hdoc2 : ∀ l ∈ pre ++ defLine c tgtv :: mid ++ useLine text d :: post,
      docLine l = true := by
    intro l hl
    have hl' : l ∈ pre ∨ l = defLine c tgtv ∨ l ∈ mid ∨ l = useLine text d ∨ l ∈ post := by
      simpa [List.mem_append, List.mem_cons, or_assoc] using hl
    rcases hl' with hh | rfl | hh | rfl | hh
    · exact (lineOkFor_spec (hpre l hh)).1
    · exact docLine_defLine hc htgt
    · exact (lineOkFor_spec (hmid l hh)).1
    · exact docLine_useLine htext hd
    · exact (lineOkFor_spec (hpost l hh)).1
  have hnl1 : ∀ l ∈ pre ++ defLine a tgtv :: mid ++ useLine text b :: post,
      ∀ ch ∈ l, ch ≠ '\n' := fun l hl => (docLine_spec (hdoc1 l hl)).1
  have hnl2 : ∀ l ∈ pre ++ defLine c tgtv :: mid ++ useLine text d :: post,
      ∀ ch ∈ l, ch ≠ '\n' := fun l hl => (docLine_spec (hdoc2 l hl)).1
  have hfm1 : (pre ++ defLine a tgtv :: mid ++ useLine text b :: post).filterMap lineDef =
      (pre.filterMap lineDef ++ (a, tgtv) :: mid.filterMap lineDef) ++
        post.filterMap lineDef := by
    rw [List.filterMap_append, List.filterMap_append]
    simp [List.filterMap_cons, lineDef_defLine ha htgt, lineDef_useLine htext]
  have hfm2 : (pre ++ defLine c tgtv :: mid ++ useLine text d :: post).filterMap lineDef =
      (pre.filterMap lineDef ++ (c, tgtv) :: mid.filterMap lineDef) ++
        post.filterMap lineDef := by
    rw [List.filterMap_append, List.filterMap_append]
    simp [List.filterMap_cons, lineDef_defLine hc htgt, lineDef_useLine htext]
  have hrefs2 : buildRefs (joinLines (pre ++ defLine c tgtv :: mid ++ useLine text d :: post)) =
      buildRefs (joinLines (pre ++ defLine a tgtv :: mid ++ useLine text b :: post)) := by
    rw [buildRefs_joinLines hdoc2, hfm2, buildRefs_joinLines hdoc1, hfm1]
    rw [List.map_append, List.map_append, List.map_append, List.map_append,
      List.map_cons, List.map_cons]
    rw [hca]
  have hlook : lookupLast (lowerStr b)
      (buildRefs (joinLines (pre ++ defLine a tgtv :: mid ++ useLine text b :: post))) =
      some tgtv := by
    rw [hba, buildRefs_joinLines hdoc1, hfm1, List.map_append, List.map_append, List.map_cons]
    rw [lookupLast_append_left _ (lookupLast_no_key hpost)]
    refine lookupLast_append_right _ ?_
    unfold lookupLast
    rw [lookupLast_no_key hmid]
    simp [strip_of_no_space (plainTarget_spec htgt).2]
  constructor
  · rw [parse_links_joinLines (by simp) hnl1, parse_links_joinLines (by simp) hnl2, hrefs2]
    have hps1 : (pre.map (fun l => (l, l)) ++ (defLine a tgtv, defLine c tgtv) ::
        mid.map (fun l => (l, l)) ++ (useLine text b, useLine text d) ::
        post.map (fun l => (l, l))).map Prod.fst =
        pre ++ defLine a tgtv :: mid ++ useLine text b :: post := by
      simp [List.map_append, List.map_cons, List.map_map, Function.comp_def]
    have hps2 : (pre.map (fun l => (l, l)) ++ (defLine a tgtv, defLine c tgtv) ::
        mid.map (fun l => (l, l)) ++ (useLine text b, useLine text d) ::
        post.map (fun l => (l, l))).map Prod.snd =
        pre ++ defLine c tgtv :: mid ++ useLine text d :: post := by
      simp [List.map_append, List.map_cons, List.map_map, Function.comp_def]
    rw [← hps1, ← hps2]
    refine parseAux_congr _ _ ?_ 1 false
    intro p hp
    have hp' : (∃ l, l ∈ pre ∧ (l, l) = p) ∨ p = (defLine a tgtv, defLine c tgtv) ∨
        (∃ l, l ∈ mid ∧ (l, l) = p) ∨ p = (useLine text b, useLine text d) ∨
        (∃ l, l ∈ post ∧ (l, l) = p) := by
      simpa [List.mem_append, List.mem_cons, List.mem_map, or_assoc] using hp
    rcases hp' with ⟨l, -, rfl⟩ | rfl | ⟨l, -, rfl⟩ | rfl | ⟨l, -, rfl⟩
    · exact ⟨rfl, fun n => rfl⟩
    · refine ⟨by rw [isFenceLine_defLine, isFenceLine_defLine], fun n => ?_⟩
      rw [lineLinks_defLine _ _ ha htgtp, lineLinks_defLine _ _ hc htgtp]
    · exact ⟨rfl, fun n => rfl⟩
    · refine ⟨by rw [isFenceLine_useLine, isFenceLine_useLine], fun n => ?_⟩
      rw [lineLinks_useLine _ _ htext hb, lineLinks_useLine _ _ htext hd, hdb]
    · exact ⟨rfl, fun n => rfl⟩
  · have hfa : fenceAfter false (pre ++ defLine a tgtv :: mid) = false := by
      rw [fenceAfter_append, hfa1]
      rw [fenceAfter_cons, if_neg (by simp [isFenceLine_defLine])]
      exact hfa2
    have hmain := parse_filter_at (pre ++ defLine a tgtv :: mid) post (useLine text b)
      hnl1 hfa (isFenceLine_useLine _ _)
    have hlen : (pre ++ defLine a tgtv :: mid).length = pre.length + mid.length + 1 := by
      simp only [List.length_append, List.length_cons]
      omega
    rw [hlen] at hmain
    have h12 : pre.length + mid.length + 1 + 1 = pre.length + mid.length + 2 := rfl
    rw [h12] at hmain
    rw [hmain, lineLinks_useLine _ _ htext hb, hlook]

theorem scanInline_eq_pos (prev : Option Char) (l : Str) :
    ∀ i, scanInline prev l = (scanInlinePos prev i l).map (fun x => (x.1, x.2.1)) := by
  induction prev, l using scanInline.induct with
  | case1 prev => intro i; rfl
  | case2 prev c cs hcond t g rest hm ih =>
    intro i
    rw [scanInline_cons_match hcond hm, scanInlinePos_cons_match hcond hm, List.map_cons,
      ih (i + ((c :: cs).length - rest.length))]
  | case3 prev c cs hcond hm ih =>
    intro i
    rw [scanInline_cons_fail hcond hm, scanInlinePos_cons_fail hcond hm, ih (i + 1)]
  | case4 prev c cs hcond ih =>
    intro i
    rw [scanInline_cons_skip _ hcond, scanInlinePos_cons_skip _ hcond, ih (i + 1)]

theorem scanInlinePos_sound (l0 : Str) (prev : Option Char) (i : Nat) (lrem : Str) :
    List.drop i l0 = lrem → (i ≠ 0 → l0[i - 1]? = prev) →
    ∀ (t g : Str) (j : Nat), (t, g, j) ∈ scanInlinePos prev i lrem →
      1 ≤ j → l0[j - 1]? ≠ some '!' := by
  induction prev, i, lrem using scanInlinePos.induct with
  | case1 prev i =>
    intro _ _ t g j hmem
    rw [show scanInlinePos prev i ([] : Str) = [] from rfl] at hmem
    exact absurd hmem (by simp)
  | case2 prev i c cs hcond t g rest hm ih =>
    intro hdrop hprev t' g' j hmem hj
    rw [scanInlinePos_cons_match hcond hm] at hmem
    rcases List.mem_cons.mp hmem with heq | htail
    · have hji : j = i := by
        have := congrArg (fun x => x.2.2) heq
        simpa using this
      subst hji
      rw [hprev (by omega)]
      exact hcond.2
    · obtain ⟨he, -, -⟩ := matchInlineAt_some hm
      have hP : c :: cs = (('[' :: t) ++ (']' :: '(' :: g) ++ [')']) ++ rest := by
        rw [he]; simp
      have hm_len : (c :: cs).length - rest.length =
          (('[' :: t) ++ (']' :: '(' :: g) ++ [')']).length := by
        rw [hP]
        simp only [List.length_append]
        omega
      have hPlen : (('[' :: t) ++ (']' :: '(' :: g) ++ [')']).length =
          t.length + g.length + 4 := by
        simp only [List.length_append, List.length_cons, List.length_nil]
        omega
      refine ih ?_ ?_ t' g' j htail hj
      · rw [hm_len, ← List.drop_drop, hdrop, hP, List.drop_left]
      · intro hne
        rw [hm_len, hPlen]
        have h1 : i + (t.length + g.length + 4) - 1 = i + (t.length + g.length + 3) := by omega
        rw [h1, ← List.getElem?_drop l0 i (t.length + g.length + 3), hdrop, hP]
        have h3 : (('[' :: t) ++ (']' :: '(' :: g) ++ [')']) ++ rest =
            (('[' :: t) ++ (']' :: '(' :: g)) ++ (')' :: rest) := by
          simp
        have h2 : (('[' :: t) ++ (']' :: '(' :: g)).length ≤ t.length + g.length + 3 := by
          simp only [List.length_append, List.length_cons]
          omega
        rw [h3, List.getElem?_append_right h2]
        have h4 : t.length + g.length + 3 - (('[' :: t) ++ (']' :: '(' :: g)).length = 0 := by
          simp only [List.length_append, List.length_cons]
          omega
        rw [h4, List.getElem?_cons_zero]
  | case3 prev i c cs hcond hm ih =>
    intro hdrop hprev t' g' j hmem hj
    rw [scanInlinePos_cons_fail hcond hm] at hmem
    refine ih ?_ ?_ t' g' j hmem hj
    · rw [← List.drop_drop, hdrop]
      rfl
    · intro hne
      have h1 : i + 1 - 1 = i + 0 := by omega
      rw [h1, ← List.getElem?_drop l0 i 0, hdrop, List.getElem?_cons_zero]
  | case4 prev i c cs hcond ih =>
    intro hdrop hprev t' g' j hmem hj
    rw [scanInlinePos_cons_skip _ hcond] at hmem
    refine ih ?_ ?_ t' g' j hmem hj
    · rw [← List.drop_drop, hdrop]
      rfl
    · intro hne
      have h1 : i + 1 - 1 = i + 0 := by omega
      rw [h1, ← List.getElem?_drop l0 i 0, hdrop, List.getElem?_cons_zero]

/-- C8: image syntax is excluded by the lookbehind at every position,
including line start: the positioned scan projects onto the actual inline
scan, every recorded inline match start with a preceding character is not
preceded by an exclamation mark, and a document line consisting of an
image produces no occurrence in parse_links. -/
theorem claim_C8 (pre post : List Str) (alt tgt : Str)
    (hpre : ∀ l ∈ pre, ∀ c ∈ l, c ≠ '\n')
    (hpost : ∀ l ∈ post, ∀ c ∈ l, c ≠ '\n')
    (ha : plainSeg alt = true) (ht : plainSeg tgt = true)
    (hfa : fenceAfter false pre = false) :
    (∀ (l t g : Str) (j : Nat), (t, g, j) ∈ scanInlinePos none 0 l →
        1 ≤ j → l[j - 1]? ≠ some '!') ∧
    (∀ (prev : Option Char) (l : Str),
        scanInline prev l = (scanInlinePos prev 0 l).map (fun x => (x.1, x.2.1))) ∧
    (parse_links (joinLines (pre ++ imgLine alt tgt :: post))).filter
        (fun o => o.line == pre.length + 1) = [] := by
  refine ⟨?_, ?_, ?_⟩
  · intro l t g j hmem hj
    exact scanInlinePos_sound l none 0 l rfl (fun h => absurd rfl h) t g j hmem hj
  · intro prev l
    exact scanInline_eq_pos prev l 0
  · have hnlimg : ∀ c ∈ imgLine alt tgt, c ≠ '\n' := by
      intro c hc
      rw [imgLine_eq] at hc
      simp only [List.mem_cons, List.mem_append, List.mem_singleton] at hc
      rcases hc with rfl | rfl | hc | rfl | rfl | hc | rfl | h0
      · decide
      · decide
      · exact ((plainSeg_spec ha).2 c hc).2.2.2.2
      · decide
      · decide
      · exact ((plainSeg_spec ht).2 c hc).2.2.2.2
      · decide
      · exact absurd h0 (by simp)
    have hnlall : ∀ l ∈ pre ++ imgLine alt tgt :: post, ∀ c ∈ l, c ≠ '\n' := by
      intro l hl
      rcases List.mem_append.mp hl with h1 | h2
      · exact hpre l h1
      · rcases List.mem_cons.mp h2 with rfl | h3
        · exact hnlimg
        · exact hpost l h3
    rw [parse_filter_at pre post (imgLine alt tgt) hnlall hfa (isFenceLine_imgLine alt tgt)]
    unfold lineLinks inlineOccs refOccs
    rw [scanInline_imgLine ha ht, scanUse_imgLine ha ht]
    rfl

theorem claim_C2_witness :
    lookupLast (lowerStr "api".toList)
        (buildRefs (joinLines (([] : List Str) ++ fenceLine ::
          defLine "api".toList "./api.md".toList :: fenceLine ::
          useLine "API".toList "api".toList :: ([] : List Str)))) =
      some ("./api.md".toList) ∧
      (parse_links (joinLines (([] : List Str) ++ fenceLine ::
          defLine "api".toList "./api.md".toList :: fenceLine ::
          useLine "API".toList "api".toList :: ([] : List Str)))).filter
          (fun o => o.line == ([] : List Str).length + 4) =
        [⟨"API".toList, "./api.md".toList, ([] : List Str).length + 4⟩] :=
  claim_C2 [] [] "api".toList "./api.md".toList "API".toList
    (by simp) (by simp) (by decide) (by decide) (by decide)

theorem claim_C4_witness :
    lookupLast (lowerStr "x".toList)
        (buildRefs (joinLines (([] : List Str) ++ defLine "x".toList "a.md".toList ::
          ([] : List Str) ++ defLine "x".toList "b.md".toList ::
          useLine "T".toList "x".toList :: ([] : List Str)))) = some ("b.md".toList) ∧
      (parse_links (joinLines (([] : List Str) ++ defLine "x".toList "a.md".toList ::
          ([] : List Str) ++ defLine "x".toList "b.md".toList ::
          useLine "T".toList "x".toList :: ([] : List Str)))).filter
          (fun o => o.line == ([] : List Str).length + ([] : List Str).length + 3) =
        [⟨"T".toList, "b.md".toList, ([] : List Str).length + ([] : List Str).length + 3⟩] :=
  claim_C4 [] [] [] "x".toList "a.md".toList "b.md".toList "T".toList
    (by simp) (by simp) (by simp) (by decide) (by decide)
    (by decide) (by decide) (by decide) (by decide)

theorem claim_C5_witness :
    parse_links (joinLines (([] : List Str) ++ defLine "api".toList "./a.md".toList ::
        ([] : List Str) ++ useLine "T".toList "API".toList :: ([] : List Str))) =
      parse_links (joinLines (([] : List Str) ++ defLine "Api".toList "./a.md".toList ::
        ([] : List Str) ++ useLine "T".toList "aPI".toList :: ([] : List Str))) ∧
    (parse_links (joinLines (([] : List Str) ++ defLine "api".toList "./a.md".toList ::
        ([] : List Str) ++ useLine "T".toList "API".toList :: ([] : List Str)))).filter
        (fun o => o.line == ([] : List Str).length + ([] : List Str).length + 2) =
      [⟨"T".toList, "./a.md".toList, ([] : List Str).length + ([] : List Str).length + 2⟩] :=
  claim_C5 [] [] [] "api".toList "API".toList "Api".toList "aPI".toList
    "./a.md".toList "T".toList
    (by simp) (by simp) (by simp) (by decide) (by decide)
    (by decide) (by decide) (by decide) (by decide) (by decide) (by decide)
    (by decide) (by decide) (by decide)

theorem claim_C6_witness :
    lookupLast (lowerStr "missing".toList)
        (buildRefs (joinLines (([] : List Str) ++
          useLine "T".toList "missing".toList :: ([] : List Str)))) = none ∧
      (parse_links (joinLines (([] : List Str) ++
          useLine "T".toList "missing".toList :: ([] : List Str)))).filter
          (fun o => o.line == ([] : List Str).length + 1) = [] :=
  claim_C6 [] [] "missing".toList "T".toList
    (by simp) (by simp) (by decide) (by decide) (by decide)

theorem claim_C8_witness :
    (∀ (l t g : Str) (j : Nat), (t, g, j) ∈ scanInlinePos none 0 l →
        1 ≤ j → l[j - 1]? ≠ some '!') ∧
    (∀ (prev : Option Char) (l : Str),
        scanInline prev l = (scanInlinePos prev 0 l).map (fun x => (x.1, x.2.1))) ∧
    (parse_links (joinLines (([] : List Str) ++
        imgLine "alt".toList "x.png".toList :: ([] : List Str)))).filter
        (fun o => o.line == ([] : List Str).length + 1) = [] :=
  claim_C8 [] [] "alt".toList "x.png".toList
    (by simp) (by simp) (by decide) (by decide) (by decide)
